import Mathlib

/-!
Verification of the core memory-management components of the `initium`
UEFI bootloader: the bump frame allocator and its memory-map
reconstruction (`initium/src/memory.rs`), the firmware descriptor
classifier (`initium/src/descriptor.rs`), the level-4 entry tracker
(`initium/src/entries.rs`), the ELF kernel loader
(`initium/src/kernel.rs`) and the mapping orchestrator / handoff
(`initium/src/initium.rs`).

Machine integers are modelled as `Nat`; the source code operates on
`u64` values wrapped in `PhysAddr` / `VirtAddr` / `PhysFrame`, whose
arithmetic panics instead of wrapping, so the `Nat` model agrees with
the source on every input on which the source does not abort.
Panics and failed assertions are modelled as `none` / `Except.error`.
-/

set_option maxHeartbeats 1000000
set_option maxRecDepth 16384

namespace Initium

/-- Page size used throughout `initium` (4 KiB). -/
def pageSize : Nat := 4096

/-- `synapse::memory::MemoryRegionKind`. -/
inductive MemoryRegionKind where
  | Usable : MemoryRegionKind
  | Bootloader : MemoryRegionKind
  | UnknownUefi : Nat → MemoryRegionKind
deriving Repr, DecidableEq

/-- `synapse::memory::MemoryRegion`: a half-open physical range
`[start, stop)` with a kind tag.  The source field `end` is a Lean
keyword, so it is called `stop` here. -/
structure MemoryRegion where
  start : Nat
  stop : Nat
  kind : MemoryRegionKind
deriving Repr, DecidableEq

/-- The data of the `LegacyMemoryRegion` trait view of one firmware
memory descriptor (`initium/src/memory.rs`): start address, byte
length, kind, and the derived reclaimable-after-exit flag. -/
structure Descriptor where
  start : Nat
  len : Nat
  kind : MemoryRegionKind
  usableAfterExit : Bool
deriving Repr, DecidableEq

/-- End address (exclusive) of a descriptor. -/
def Descriptor.stop (d : Descriptor) : Nat := d.start + d.len

/-- `UefiMemoryDescriptor::kind` (`initium/src/descriptor.rs`):
`MemoryType::CONVENTIONAL` (= 7) maps to `Usable`, every other
firmware type is passed through as `UnknownUefi`. -/
def uefiKind (ty : Nat) : MemoryRegionKind :=
  if ty = 7 then MemoryRegionKind.Usable else MemoryRegionKind.UnknownUefi ty

/-- `UefiMemoryDescriptor::usable_after_bootloader_exit`
(`initium/src/descriptor.rs`): conventional (7), loader code/data
(1, 2) and boot-services code/data (3, 4) are reclaimable; runtime
services (5, 6) and everything else are not. -/
def uefiUsableAfterExit (ty : Nat) : Bool :=
  ty = 7 || ty = 1 || ty = 2 || ty = 3 || ty = 4

/-- The descriptor view of a raw UEFI memory descriptor with type
`ty`, physical start `physStart` and `pageCount` 4 KiB pages. -/
def uefiDescriptor (ty physStart pageCount : Nat) : Descriptor :=
  { start := physStart
    len := pageCount * pageSize
    kind := uefiKind ty
    usableAfterExit := uefiUsableAfterExit ty }

/-- `LegacyFrameAllocator::add_region` (`initium/src/memory.rs`):
append a region to the output buffer, skipping empty regions.  The
buffer-exhaustion panic is not modelled here; the output list is
unbounded and theorems bound its length instead. -/
def addRegion (r : MemoryRegion) (acc : List MemoryRegion) : List MemoryRegion :=
  if r.start = r.stop then acc else acc ++ [r]

/-- The `match descriptor.kind()` step of `construct_memory_map`:
returns the (possibly extended) output list, the (possibly advanced)
region start, and the output kind for the current descriptor. -/
def classifyDescriptor (nextFree : Nat) (acc : List MemoryRegion) (d : Descriptor) :
    List MemoryRegion × Nat × MemoryRegionKind :=
  match d.kind with
  | MemoryRegionKind.Usable =>
    if d.stop ≤ nextFree then
      (acc, d.start, MemoryRegionKind.Bootloader)
    else if d.start ≥ nextFree then
      (acc, d.start, MemoryRegionKind.Usable)
    else
      (addRegion { start := d.start, stop := nextFree, kind := MemoryRegionKind.Bootloader } acc,
        nextFree, MemoryRegionKind.Usable)
  | other =>
    if d.usableAfterExit then (acc, d.start, MemoryRegionKind.Usable)
    else (acc, d.start, other)

/-- The kernel-slice split step of `construct_memory_map`.  A usable
region overlapping the kernel slice is split into up to three pieces;
the two source asserts (kernel must lie wholly inside the region)
are modelled as `none`. -/
def splitKernelSlice (ksStart ksLen : Nat) (acc : List MemoryRegion)
    (region : MemoryRegion) : Option (List MemoryRegion) :=
  let ksStop := ksStart + ksLen
  if region.kind = MemoryRegionKind.Usable ∧ ksStart < region.stop ∧ ksStop > region.start then
    if ksStart ≥ region.start then
      if ksStop ≤ region.stop then
        let beforeKernel : MemoryRegion := { region with stop := ksStart }
        let kernelRegion : MemoryRegion :=
          { start := ksStart, stop := ksStop, kind := MemoryRegionKind.Bootloader }
        let afterKernel : MemoryRegion := { region with start := ksStop }
        some (addRegion afterKernel (addRegion kernelRegion (addRegion beforeKernel acc)))
      else none
    else none
  else
    some (addRegion region acc)

/-- One loop iteration of `construct_memory_map` for a single input
descriptor. -/
def constructStep (nextFree ksStart ksLen : Nat) (acc : List MemoryRegion)
    (d : Descriptor) : Option (List MemoryRegion) :=
  let c := classifyDescriptor nextFree acc d
  splitKernelSlice ksStart ksLen c.1 { start := c.2.1, stop := d.stop, kind := c.2.2 }

/-- `LegacyFrameAllocator::construct_memory_map`
(`initium/src/memory.rs`, lines 108-200): walk the original
descriptor list and emit the reconciled output regions.
`nextFree` is `self.next_frame.start_address()`. -/
def constructMemoryMap (nextFree ksStart ksLen : Nat) :
    List Descriptor → List MemoryRegion → Option (List MemoryRegion)
  | [], acc => some acc
  | d :: rest, acc =>
    match constructStep nextFree ksStart ksLen acc d with
    | none => none
    | some acc2 => constructMemoryMap nextFree ksStart ksLen rest acc2

/-- `LegacyFrameAllocator` state (`initium/src/memory.rs`): the
original descriptor list, the remaining part of the iterator, the
current descriptor and the next candidate frame (a frame number;
its address is `pageSize * nextFrame`). -/
structure AllocState where
  original : List Descriptor
  memoryMap : List Descriptor
  currentDescriptor : Option Descriptor
  nextFrame : Nat
deriving Repr, DecidableEq

/-- `LegacyFrameAllocator::new_starting_at`. -/
def AllocState.newStartingAt (frame : Nat) (memoryMap : List Descriptor) : AllocState :=
  { original := memoryMap
    memoryMap := memoryMap
    currentDescriptor := none
    nextFrame := frame }

/-- `LegacyFrameAllocator::new`: skips frame 0 and starts allocating
at physical address 0x1000 (frame 1). -/
def AllocState.new (memoryMap : List Descriptor) : AllocState :=
  AllocState.newStartingAt (0x1000 / pageSize) memoryMap

/-- `LegacyFrameAllocator::allocate_frame_from_descriptor`
(`initium/src/memory.rs`, lines 50-68).  Returns the allocated frame
(if any) together with the updated `next_frame`; note that
`next_frame` may be bumped up to the descriptor start even when the
allocation fails. -/
def allocateFrameFromDescriptor (nextFrame : Nat) (d : Descriptor) : Option Nat × Nat :=
  let startFrame := d.start / pageSize
  let endFrame := (d.start + d.len - 1) / pageSize
  let nf := if nextFrame < startFrame then startFrame else nextFrame
  if nf ≤ endFrame then (some nf, nf + 1) else (none, nf)

/-- The `while let Some(descriptor) = self.memory_map.next()` loop of
`allocate_frame`: skip non-usable descriptors, try to allocate from
each usable one.  Returns the allocated frame, the new current
descriptor, the remaining iterator and the new `next_frame`. -/
def allocateLoop : List Descriptor → Nat →
    Option Nat × Option Descriptor × List Descriptor × Nat
  | [], nextFrame => (none, none, [], nextFrame)
  | d :: rest, nextFrame =>
    if d.kind ≠ MemoryRegionKind.Usable then
      allocateLoop rest nextFrame
    else
      match allocateFrameFromDescriptor nextFrame d with
      | (some f, nf) => (some f, some d, rest, nf)
      | (none, nf) => allocateLoop rest nf

/-- `FrameAllocator::allocate_frame` for `LegacyFrameAllocator`
(`initium/src/memory.rs`, lines 203-231). -/
def allocateFrame (s : AllocState) : Option Nat × AllocState :=
  match s.currentDescriptor with
  | some d =>
    match allocateFrameFromDescriptor s.nextFrame d with
    | (some f, nf) => (some f, { s with nextFrame := nf })
    | (none, nf) =>
      let r := allocateLoop s.memoryMap nf
      (r.1, { s with memoryMap := r.2.2.1, currentDescriptor := r.2.1, nextFrame := r.2.2.2 })
  | none =>
    let r := allocateLoop s.memoryMap s.nextFrame
    (r.1, { s with memoryMap := r.2.2.1, currentDescriptor := r.2.1, nextFrame := r.2.2.2 })

/-- `construct_memory_map` invoked on an allocator state: consumes
the allocator, walking the original descriptor list with
`next_free = next_frame.start_address()`. -/
def AllocState.constructMemoryMap (s : AllocState) (ksStart ksLen : Nat) :
    Option (List MemoryRegion) :=
  Initium.constructMemoryMap (pageSize * s.nextFrame) ksStart ksLen s.original []

/-- Physical address `a` is covered by an output region of kind
`Usable` or `Bootloader`. -/
def outputCovers (rs : List MemoryRegion) (a : Nat) : Prop :=
  ∃ r ∈ rs,
    (r.kind = MemoryRegionKind.Usable ∨ r.kind = MemoryRegionKind.Bootloader) ∧
    r.start ≤ a ∧ a < r.stop

/-- Physical address `a` is covered by an input descriptor of kind
`Usable`. -/
def inputUsableCovers (ds : List Descriptor) (a : Nat) : Prop :=
  ∃ d ∈ ds, d.kind = MemoryRegionKind.Usable ∧ d.start ≤ a ∧ a < d.stop

/-- Physical address `a` is covered by an input descriptor that is
usable or reclaimable after bootloader exit. -/
def inputReclaimableCovers (ds : List Descriptor) (a : Nat) : Prop :=
  ∃ d ∈ ds,
    (d.kind = MemoryRegionKind.Usable ∨ d.usableAfterExit = true) ∧
    d.start ≤ a ∧ a < d.stop

instance (rs : List MemoryRegion) (a : Nat) : Decidable (outputCovers rs a) := by
  unfold outputCovers
  infer_instance

instance (ds : List Descriptor) (a : Nat) : Decidable (inputUsableCovers ds a) := by
  unfold inputUsableCovers
  infer_instance

instance (ds : List Descriptor) (a : Nat) : Decidable (inputReclaimableCovers ds a) := by
  unfold inputReclaimableCovers
  infer_instance

end Initium

namespace Initium

theorem outputCovers_nil (a : Nat) : ¬ outputCovers [] a := by
  rintro ⟨r, hr, _⟩
  exact absurd hr (List.not_mem_nil r)

theorem outputCovers_addRegion (r : MemoryRegion) (acc : List MemoryRegion) (a : Nat) :
    outputCovers (addRegion r acc) a ↔
      outputCovers acc a ∨
        ((r.kind = MemoryRegionKind.Usable ∨ r.kind = MemoryRegionKind.Bootloader) ∧
          r.start ≤ a ∧ a < r.stop) := by
  unfold addRegion outputCovers
  split
  · next hempty =>
    constructor
    · exact Or.inl
    · rintro (hc | ⟨_, h1, h2⟩)
      · exact hc
      · omega
  · constructor
    · rintro ⟨x, hx, hP⟩
      rcases List.mem_append.mp hx with hx | hx
      · exact Or.inl ⟨x, hx, hP⟩
      · rcases List.mem_singleton.mp hx with rfl
        exact Or.inr hP
    · rintro (⟨x, hx, hP⟩ | hP)
      · exact ⟨x, List.mem_append.mpr (Or.inl hx), hP⟩
      · exact ⟨r, List.mem_append.mpr (Or.inr (List.mem_singleton.mpr rfl)), hP⟩

theorem inputReclaimableCovers_cons (d : Descriptor) (rest : List Descriptor) (a : Nat) :
    inputReclaimableCovers (d :: rest) a ↔
      ((d.kind = MemoryRegionKind.Usable ∨ d.usableAfterExit = true) ∧
          d.start ≤ a ∧ a < d.stop) ∨
        inputReclaimableCovers rest a := by
  unfold inputReclaimableCovers
  constructor
  · rintro ⟨x, hx, hP⟩
    rcases List.mem_cons.mp hx with rfl | hx
    · exact Or.inl hP
    · exact Or.inr ⟨x, hx, hP⟩
  · rintro (hP | ⟨x, hx, hP⟩)
    · exact ⟨d, List.mem_cons_self d rest, hP⟩
    · exact ⟨x, List.mem_cons_of_mem _ hx, hP⟩

theorem splitKernelSlice_covers (ks kl : Nat) (acc : List MemoryRegion)
    (region : MemoryRegion) (acc2 : List MemoryRegion)
    (h : splitKernelSlice ks kl acc region = some acc2) (a : Nat) :
    outputCovers acc2 a ↔
      outputCovers acc a ∨
        ((region.kind = MemoryRegionKind.Usable ∨ region.kind = MemoryRegionKind.Bootloader) ∧
          region.start ≤ a ∧ a < region.stop) := by
  simp only [splitKernelSlice] at h
  split_ifs at h with h1 h2 h3
  · obtain ⟨hkind, hlt, hgt⟩ := h1
    injection h with h
    subst h
    rw [outputCovers_addRegion, outputCovers_addRegion, outputCovers_addRegion]
    simp only [hkind]
    simp only [reduceCtorEq, or_true, true_or, true_and, or_false, false_or]
    generalize outputCovers acc a = P
    by_cases hP : P
    · simp only [hP, true_or, iff_true]
    · simp only [hP, false_or]
      omega
  · injection h with h
    subst h
    rw [outputCovers_addRegion]

end Initium

namespace Initium

theorem classifyDescriptor_usable (nf : Nat) (acc : List MemoryRegion) (d : Descriptor)
    (hdk : d.kind = MemoryRegionKind.Usable) :
    classifyDescriptor nf acc d =
      if d.stop ≤ nf then (acc, d.start, MemoryRegionKind.Bootloader)
      else if d.start ≥ nf then (acc, d.start, MemoryRegionKind.Usable)
      else
        (addRegion { start := d.start, stop := nf, kind := MemoryRegionKind.Bootloader } acc,
          nf, MemoryRegionKind.Usable) := by
  unfold classifyDescriptor
  rw [hdk]

theorem classifyDescriptor_other (nf : Nat) (acc : List MemoryRegion) (d : Descriptor)
    (hdk : d.kind ≠ MemoryRegionKind.Usable) :
    classifyDescriptor nf acc d =
      if d.usableAfterExit then (acc, d.start, MemoryRegionKind.Usable)
      else (acc, d.start, d.kind) := by
  unfold classifyDescriptor
  cases hk : d.kind with
  | Usable => exact absurd hk hdk
  | Bootloader => rfl
  | UnknownUefi t => rfl

theorem constructStep_covers (nf ks kl : Nat) (acc : List MemoryRegion) (d : Descriptor)
    (hk : d.kind ≠ MemoryRegionKind.Bootloader) (acc2 : List MemoryRegion)
    (h : constructStep nf ks kl acc d = some acc2) (a : Nat) :
    outputCovers acc2 a ↔
      outputCovers acc a ∨
        ((d.kind = MemoryRegionKind.Usable ∨ d.usableAfterExit = true) ∧
          d.start ≤ a ∧ a < d.stop) := by
  unfold constructStep at h
  by_cases hdk : d.kind = MemoryRegionKind.Usable
  · rw [classifyDescriptor_usable nf acc d hdk] at h
    split_ifs at h with h1 h2
    · simp only at h
      rw [splitKernelSlice_covers ks kl acc _ acc2 h a]
      simp only [hdk, reduceCtorEq, or_true, true_or, true_and, false_or, or_false]
    · simp only at h
      rw [splitKernelSlice_covers ks kl acc _ acc2 h a]
      simp only [hdk, reduceCtorEq, or_true, true_or, true_and, false_or, or_false]
    · simp only at h
      rw [splitKernelSlice_covers ks kl _ _ acc2 h a, outputCovers_addRegion]
      simp only [hdk, reduceCtorEq, or_true, true_or, true_and, false_or, or_false]
      generalize outputCovers acc a = P
      by_cases hP : P
      · simp only [hP, true_or, iff_true]
      · simp only [hP, false_or]
        omega
  · rw [classifyDescriptor_other nf acc d hdk] at h
    split_ifs at h with h1
    · simp only at h
      rw [splitKernelSlice_covers ks kl acc _ acc2 h a]
      simp only [h1, reduceCtorEq, or_true, true_or, true_and, false_or, or_false]
    · simp only at h
      rw [splitKernelSlice_covers ks kl acc _ acc2 h a]
      have hb : (d.kind = MemoryRegionKind.Usable ∨ d.kind = MemoryRegionKind.Bootloader) ↔ False :=
        iff_false_intro (not_or.mpr ⟨hdk, hk⟩)
      have hu : (d.kind = MemoryRegionKind.Usable ∨ d.usableAfterExit = true) ↔ False :=
        iff_false_intro (not_or.mpr ⟨hdk, h1⟩)
      simp only [hb, hu, false_and, or_false]

theorem constructMemoryMap_covers (nf ks kl : Nat) (ds : List Descriptor)
    (hk : ∀ d ∈ ds, d.kind ≠ MemoryRegionKind.Bootloader) :
    ∀ (acc out : List MemoryRegion),
      constructMemoryMap nf ks kl ds acc = some out → ∀ a : Nat,
      (outputCovers out a ↔ (outputCovers acc a ∨ inputReclaimableCovers ds a)) := by
  induction ds with
  | nil =>
    intro acc out h a
    unfold constructMemoryMap at h
    injection h with h
    subst h
    have : ¬ inputReclaimableCovers [] a := by
      rintro ⟨d, hd, _⟩
      exact absurd hd (List.not_mem_nil d)
    tauto
  | cons d rest ih =>
    intro acc out h a
    unfold constructMemoryMap at h
    cases hs : constructStep nf ks kl acc d with
    | none => rw [hs] at h; exact absurd h (by simp)
    | some acc2 =>
      rw [hs] at h
      have hd := constructStep_covers nf ks kl acc d (hk d (List.mem_cons_self d rest)) acc2 hs a
      have hr := ih (fun x hx => hk x (List.mem_cons_of_mem _ hx)) acc2 out h a
      rw [hr, hd, inputReclaimableCovers_cons]
      tauto

end Initium

namespace Initium

/-- A one-region firmware memory map consisting of a single
`LOADER_CODE` (type 1) descriptor covering `[0x1000, 0x2000)`. -/
def loaderCodeMap : List Descriptor := [uefiDescriptor 1 0x1000 1]

/-- C1 counterexample: the claim fails on any firmware map containing
a reclaimable non-`Usable` descriptor (here UEFI `LOADER_CODE`):
`construct_memory_map` re-tags it `Usable`, so the output
Usable + Bootloader union strictly exceeds the input `Usable` union
(witnessed at address 0x1000). -/
theorem construct_memory_map_union_usable_cex :
    ¬ (∀ out, constructMemoryMap 0x1000 0 0 loaderCodeMap [] = some out →
        ∀ a : Nat, outputCovers out a ↔ inputUsableCovers loaderCodeMap a) := by
  intro hclaim
  have h1 :=
    (hclaim [{ start := 0x1000, stop := 0x2000, kind := MemoryRegionKind.Usable }]
      (by decide) 0x1000).mp (by decide)
  revert h1
  decide

/-- C1 amended: for every firmware memory map (no descriptor carries
the `Bootloader` tag) and every allocator state, the union of the
output regions of kind `Usable` or `Bootloader` emitted by
`construct_memory_map` equals the union of the input regions that are
`Usable` *or reclaimable after bootloader exit*. -/
theorem construct_memory_map_union_reclaimable (nf ks kl : Nat) (ds : List Descriptor)
    (hk : ∀ d ∈ ds, d.kind ≠ MemoryRegionKind.Bootloader) (out : List MemoryRegion)
    (h : constructMemoryMap nf ks kl ds [] = some out) (a : Nat) :
    outputCovers out a ↔ inputReclaimableCovers ds a := by
  rw [constructMemoryMap_covers nf ks kl ds hk [] out h a]
  have : ¬ outputCovers [] a := outputCovers_nil a
  tauto

/-- Witness for the amended C1 theorem at a concrete input. -/
theorem construct_memory_map_union_reclaimable_witness :
    (outputCovers [{ start := 0x1000, stop := 0x2000, kind := MemoryRegionKind.Usable }] 0x1234 ↔
      inputReclaimableCovers loaderCodeMap 0x1234) :=
  construct_memory_map_union_reclaimable 0x1000 0 0 loaderCodeMap (by decide)
    [{ start := 0x1000, stop := 0x2000, kind := MemoryRegionKind.Usable }] (by decide) 0x1234

/-- The firmware memory map of spec scenario 1: one `CONVENTIONAL`
region covering `[0x1000, 0x100000)` (0xFF pages). -/
def scenarioMap : List Descriptor := [uefiDescriptor 7 0x1000 0xFF]

/-- C3: with the single Usable region `[0x1000, 0x100000)`, two
successful allocations (frames 0x1000 and 0x2000, so
`next_frame = 0x3000`) and a kernel slice `[0x10000, 0x20000)`,
`construct_memory_map` emits exactly Bootloader `[0x1000, 0x3000)`,
Usable `[0x3000, 0x10000)`, Bootloader `[0x10000, 0x20000)`,
Usable `[0x20000, 0x100000)`, in this order. -/
theorem memory_map_reconciliation_with_kernel_overlap :
    (allocateFrame (AllocState.new scenarioMap)).1 = some 1 ∧
    (allocateFrame (allocateFrame (AllocState.new scenarioMap)).2).1 = some 2 ∧
    pageSize * (allocateFrame (allocateFrame (AllocState.new scenarioMap)).2).2.nextFrame
      = 0x3000 ∧
    AllocState.constructMemoryMap
        (allocateFrame (allocateFrame (AllocState.new scenarioMap)).2).2 0x10000 0x10000 =
      some [{ start := 0x1000, stop := 0x3000, kind := MemoryRegionKind.Bootloader },
            { start := 0x3000, stop := 0x10000, kind := MemoryRegionKind.Usable },
            { start := 0x10000, stop := 0x20000, kind := MemoryRegionKind.Bootloader },
            { start := 0x20000, stop := 0x100000, kind := MemoryRegionKind.Usable }] := by
  decide

end Initium

namespace Initium

/-- A descriptor may cause `construct_memory_map` to emit an extra
`Bootloader` prefix region exactly when `next_free` lies strictly
inside it. -/
def canStraddle (nf : Nat) (d : Descriptor) : Prop := d.start < nf ∧ nf < d.stop

instance (nf : Nat) (d : Descriptor) : Decidable (canStraddle nf d) := by
  unfold canStraddle
  infer_instance

/-- A descriptor can trigger the kernel-slice split (without failing
the asserts) only when the kernel slice start lies inside it. -/
def canSplitAt (ks : Nat) (d : Descriptor) : Prop := d.start ≤ ks ∧ ks < d.stop

instance (ks : Nat) (d : Descriptor) : Decidable (canSplitAt ks d) := by
  unfold canSplitAt
  infer_instance

theorem addRegion_length (r : MemoryRegion) (acc : List MemoryRegion) :
    acc.length ≤ (addRegion r acc).length ∧ (addRegion r acc).length ≤ acc.length + 1 := by
  unfold addRegion
  split <;> simp

theorem splitKernelSlice_length (ks kl : Nat) (acc : List MemoryRegion)
    (region : MemoryRegion) (acc2 : List MemoryRegion)
    (h : splitKernelSlice ks kl acc region = some acc2) :
    acc2.length ≤ acc.length + 1 ∨
      (acc2.length ≤ acc.length + 3 ∧ region.start ≤ ks ∧ ks < region.stop) := by
  simp only [splitKernelSlice] at h
  split_ifs at h with h1 h2 h3
  · injection h with h
    subst h
    obtain ⟨hkind, hlt, hgt⟩ := h1
    refine Or.inr ⟨?_, h2, hlt⟩
    have a1 := addRegion_length { region with stop := ks } acc
    have a2 := addRegion_length
      { start := ks, stop := ks + kl, kind := MemoryRegionKind.Bootloader }
      (addRegion { region with stop := ks } acc)
    have a3 := addRegion_length { region with start := ks + kl }
      (addRegion { start := ks, stop := ks + kl, kind := MemoryRegionKind.Bootloader }
        (addRegion { region with stop := ks } acc))
    omega
  · injection h with h
    subst h
    have a1 := addRegion_length region acc
    exact Or.inl (by omega)

theorem constructStep_length (nf ks kl : Nat) (acc : List MemoryRegion) (d : Descriptor)
    (acc2 : List MemoryRegion) (h : constructStep nf ks kl acc d = some acc2) :
    acc2.length ≤ acc.length + 1 + (if canStraddle nf d then 1 else 0) +
      (if canSplitAt ks d then 2 else 0) := by
  unfold constructStep at h
  by_cases hdk : d.kind = MemoryRegionKind.Usable
  · rw [classifyDescriptor_usable nf acc d hdk] at h
    split_ifs at h with h1 h2
    · simp only at h
      rcases splitKernelSlice_length ks kl acc _ acc2 h with hl | ⟨hl, hs1, hs2⟩
      · split_ifs <;> omega
      · simp only at hs1 hs2
        have hcs : canSplitAt ks d := ⟨hs1, hs2⟩
        split_ifs <;> omega
    · simp only at h
      rcases splitKernelSlice_length ks kl acc _ acc2 h with hl | ⟨hl, hs1, hs2⟩
      · split_ifs <;> omega
      · simp only at hs1 hs2
        have hcs : canSplitAt ks d := ⟨hs1, hs2⟩
        split_ifs <;> omega
    · simp only at h
      have hstr : canStraddle nf d := ⟨by omega, by omega⟩
      have a1 := addRegion_length
        { start := d.start, stop := nf, kind := MemoryRegionKind.Bootloader } acc
      rcases splitKernelSlice_length ks kl _ _ acc2 h with hl | ⟨hl, hs1, hs2⟩
      · split_ifs <;> omega
      · simp only at hs1 hs2
        have hcs : canSplitAt ks d := ⟨by omega, hs2⟩
        split_ifs
        omega
  · rw [classifyDescriptor_other nf acc d hdk] at h
    split_ifs at h with h1 <;>
    · simp only at h
      rcases splitKernelSlice_length ks kl acc _ acc2 h with hl | ⟨hl, hs1, hs2⟩
      · split_ifs <;> omega
      · simp only at hs1 hs2
        have hcs : canSplitAt ks d := ⟨hs1, hs2⟩
        split_ifs <;> omega

end Initium

namespace Initium

/-- The emitted output list is chained: each region ends no later
than the next one starts (hence sorted and non-overlapping). -/
def regionsChained (acc : List MemoryRegion) : Prop :=
  List.Pairwise (fun r s => r.stop ≤ s.start) acc

instance (acc : List MemoryRegion) : Decidable (regionsChained acc) := by
  unfold regionsChained
  infer_instance

theorem constructMemoryMap_length (nf ks kl : Nat) : ∀ (ds : List Descriptor),
    List.Pairwise (fun d e => d.stop ≤ e.start) ds → ∀ (acc out : List MemoryRegion),
    constructMemoryMap nf ks kl ds acc = some out →
    out.length ≤ acc.length + ds.length +
      (if ∃ d ∈ ds, canStraddle nf d then 1 else 0) +
      (if ∃ d ∈ ds, canSplitAt ks d then 2 else 0) := by
  intro ds
  induction ds with
  | nil =>
    intro _ acc out h
    unfold constructMemoryMap at h
    injection h with h
    subst h
    simp
  | cons d rest ih =>
    intro hd acc out h
    unfold constructMemoryMap at h
    cases hs : constructStep nf ks kl acc d with
    | none => rw [hs] at h; exact absurd h (by simp)
    | some acc2 =>
      rw [hs] at h
      obtain ⟨hhead, htail⟩ := List.pairwise_cons.mp hd
      have hstep := constructStep_length nf ks kl acc d acc2 hs
      have hrest := ih htail acc2 out h
      have hexS : canStraddle nf d → ¬ (∃ e ∈ rest, canStraddle nf e) := by
        rintro ⟨hd1, hd2⟩ ⟨e, he, he1, he2⟩
        have := hhead e he
        unfold Descriptor.stop at *
        omega
      have hexP : canSplitAt ks d → ¬ (∃ e ∈ rest, canSplitAt ks e) := by
        rintro ⟨hd1, hd2⟩ ⟨e, he, he1, he2⟩
        have := hhead e he
        unfold Descriptor.stop at *
        omega
      have hmemS : (∃ e ∈ rest, canStraddle nf e) → (∃ e ∈ d :: rest, canStraddle nf e) := by
        rintro ⟨e, he, hc⟩
        exact ⟨e, List.mem_cons_of_mem _ he, hc⟩
      have hmemP : (∃ e ∈ rest, canSplitAt ks e) → (∃ e ∈ d :: rest, canSplitAt ks e) := by
        rintro ⟨e, he, hc⟩
        exact ⟨e, List.mem_cons_of_mem _ he, hc⟩
      have hheadS : canStraddle nf d → (∃ e ∈ d :: rest, canStraddle nf e) :=
        fun hc => ⟨d, List.mem_cons_self d rest, hc⟩
      have hheadP : canSplitAt ks d → (∃ e ∈ d :: rest, canSplitAt ks e) :=
        fun hc => ⟨d, List.mem_cons_self d rest, hc⟩
      have hS : (if canStraddle nf d then 1 else 0) +
          (if ∃ e ∈ rest, canStraddle nf e then 1 else 0) ≤
          (if ∃ e ∈ d :: rest, canStraddle nf e then 1 else 0) := by
        by_cases hc : canStraddle nf d
        · rw [if_pos hc, if_pos (hheadS hc), if_neg (hexS hc)]
        · rw [if_neg hc]
          by_cases hr : ∃ e ∈ rest, canStraddle nf e
          · rw [if_pos hr, if_pos (hmemS hr)]
          · rw [if_neg hr]
            omega
      have hP : (if canSplitAt ks d then 2 else 0) +
          (if ∃ e ∈ rest, canSplitAt ks e then 2 else 0) ≤
          (if ∃ e ∈ d :: rest, canSplitAt ks e then 2 else 0) := by
        by_cases hc : canSplitAt ks d
        · rw [if_pos hc, if_pos (hheadP hc), if_neg (hexP hc)]
        · rw [if_neg hc]
          by_cases hr : ∃ e ∈ rest, canSplitAt ks e
          · rw [if_pos hr, if_pos (hmemP hr)]
          · rw [if_neg hr]
            omega
      simp only [List.length_cons]
      omega

theorem addRegion_inv (r : MemoryRegion) (acc : List MemoryRegion)
    (hc : regionsChained acc) (hne : ∀ x ∈ acc, x.start < x.stop)
    (hub : ∀ x ∈ acc, x.stop ≤ r.start) (hr : r.start ≤ r.stop) :
    regionsChained (addRegion r acc) ∧ (∀ x ∈ addRegion r acc, x.start < x.stop) ∧
      (∀ x ∈ addRegion r acc, x.stop ≤ r.stop) := by
  unfold addRegion
  split
  · next he =>
    refine ⟨hc, hne, fun x hx => ?_⟩
    have := hub x hx
    omega
  · next he =>
    refine ⟨?_, ?_, ?_⟩
    · unfold regionsChained at hc ⊢
      rw [List.pairwise_append]
      refine ⟨hc, by simp, fun x hx y hy => ?_⟩
      rw [List.mem_singleton] at hy
      subst hy
      exact hub x hx
    · intro x hx
      rcases List.mem_append.mp hx with hx | hx
      · exact hne x hx
      · rw [List.mem_singleton] at hx
        subst hx
        omega
    · intro x hx
      rcases List.mem_append.mp hx with hx | hx
      · have := hub x hx
        omega
      · rw [List.mem_singleton] at hx
        subst hx
        exact le_rfl

theorem splitKernelSlice_inv (ks kl : Nat) (acc : List MemoryRegion) (region : MemoryRegion)
    (acc2 : List MemoryRegion) (h : splitKernelSlice ks kl acc region = some acc2)
    (hc : regionsChained acc) (hne : ∀ x ∈ acc, x.start < x.stop)
    (hub : ∀ x ∈ acc, x.stop ≤ region.start) (hr : region.start ≤ region.stop) :
    regionsChained acc2 ∧ (∀ x ∈ acc2, x.start < x.stop) ∧
      (∀ x ∈ acc2, x.stop ≤ region.stop) := by
  simp only [splitKernelSlice] at h
  split_ifs at h with h1 h2 h3
  · obtain ⟨hkind, hlt, hgt⟩ := h1
    injection h with h
    subst h
    have i1 := addRegion_inv { region with stop := ks } acc hc hne hub (by show region.start ≤ ks; omega)
    have i2 := addRegion_inv
      { start := ks, stop := ks + kl, kind := MemoryRegionKind.Bootloader } _
      i1.1 i1.2.1 i1.2.2 (by show ks ≤ ks + kl; omega)
    have i3 := addRegion_inv { region with start := ks + kl } _
      i2.1 i2.2.1 i2.2.2 (by show ks + kl ≤ region.stop; omega)
    exact i3
  · injection h with h
    subst h
    exact addRegion_inv region acc hc hne hub hr

theorem constructStep_inv (nf ks kl : Nat) (acc : List MemoryRegion) (d : Descriptor)
    (acc2 : List MemoryRegion) (h : constructStep nf ks kl acc d = some acc2)
    (hc : regionsChained acc) (hne : ∀ x ∈ acc, x.start < x.stop)
    (hub : ∀ x ∈ acc, x.stop ≤ d.start) :
    regionsChained acc2 ∧ (∀ x ∈ acc2, x.start < x.stop) ∧ (∀ x ∈ acc2, x.stop ≤ d.stop) := by
  have hds : d.start ≤ d.stop := by
    unfold Descriptor.stop
    omega
  unfold constructStep at h
  by_cases hdk : d.kind = MemoryRegionKind.Usable
  · rw [classifyDescriptor_usable nf acc d hdk] at h
    split_ifs at h with h1 h2
    · simp only at h
      exact splitKernelSlice_inv ks kl acc _ acc2 h hc hne hub hds
    · simp only at h
      exact splitKernelSlice_inv ks kl acc _ acc2 h hc hne hub hds
    · simp only at h
      have i1 := addRegion_inv
        { start := d.start, stop := nf, kind := MemoryRegionKind.Bootloader } acc hc hne hub
        (by show d.start ≤ nf; omega)
      have i2 := splitKernelSlice_inv ks kl _ _ acc2 h i1.1 i1.2.1 i1.2.2
        (by show nf ≤ d.stop; omega)
      exact i2
  · rw [classifyDescriptor_other nf acc d hdk] at h
    split_ifs at h with h1 <;>
    · simp only at h
      exact splitKernelSlice_inv ks kl acc _ acc2 h hc hne hub hds

theorem constructMemoryMap_inv (nf ks kl : Nat) : ∀ (ds : List Descriptor),
    List.Pairwise (fun d e => d.stop ≤ e.start) ds → ∀ (acc out : List MemoryRegion),
    constructMemoryMap nf ks kl ds acc = some out →
    regionsChained acc → (∀ x ∈ acc, x.start < x.stop) →
    (∀ x ∈ acc, ∀ d ∈ ds, x.stop ≤ d.start) →
    regionsChained out ∧ (∀ x ∈ out, x.start < x.stop) := by
  intro ds
  induction ds with
  | nil =>
    intro _ acc out h hc hne _
    unfold constructMemoryMap at h
    injection h with h
    subst h
    exact ⟨hc, hne⟩
  | cons d rest ih =>
    intro hd acc out h hc hne hub
    unfold constructMemoryMap at h
    cases hs : constructStep nf ks kl acc d with
    | none => rw [hs] at h; exact absurd h (by simp)
    | some acc2 =>
      rw [hs] at h
      obtain ⟨hhead, htail⟩ := List.pairwise_cons.mp hd
      have hstep := constructStep_inv nf ks kl acc d acc2 hs hc hne
        (fun x hx => hub x hx d (List.mem_cons_self d rest))
      refine ih htail acc2 out h hstep.1 hstep.2.1 ?_
      intro x hx e he
      have h1 := hstep.2.2 x hx
      have h2 := hhead e he
      omega

end Initium

namespace Initium

/-- C2 amended: for every firmware memory map whose `n` descriptors
are sorted by start and pairwise disjoint, and every allocator state
and kernel slice for which `construct_memory_map` completes without
failing an assert, the output has at most `n + 4` regions, is sorted
by start address, and no two output regions overlap. -/
theorem construct_memory_map_sorted_disjoint_bound (nf ks kl : Nat) (ds : List Descriptor)
    (hd : List.Pairwise (fun d e => d.stop ≤ e.start) ds) (out : List MemoryRegion)
    (h : constructMemoryMap nf ks kl ds [] = some out) :
    out.length ≤ ds.length + 4 ∧
    List.Pairwise (fun r s => r.start ≤ s.start) out ∧
    List.Pairwise (fun r s => r.stop ≤ s.start ∨ s.stop ≤ r.start) out := by
  have hlen := constructMemoryMap_length nf ks kl ds hd [] out h
  have hinv := constructMemoryMap_inv nf ks kl ds hd [] out h
    (by unfold regionsChained; exact List.Pairwise.nil)
    (by intro x hx; exact absurd hx (List.not_mem_nil x))
    (by intro x hx; exact absurd hx (List.not_mem_nil x))
  refine ⟨?_, ?_, ?_⟩
  · have b1 : (if ∃ d ∈ ds, canStraddle nf d then 1 else 0) ≤ 1 := by
      split_ifs <;> omega
    have b2 : (if ∃ d ∈ ds, canSplitAt ks d then 2 else 0) ≤ 2 := by
      split_ifs <;> omega
    simp only [List.length_nil] at hlen
    omega
  · have hchain := hinv.1
    have hne := hinv.2
    unfold regionsChained at hchain
    exact List.Pairwise.imp_of_mem
      (fun hx _ hrel => by have := hne _ hx; omega) hchain
  · exact List.Pairwise.imp (fun hrel => Or.inl hrel) hinv.1

/-- A firmware map whose two conventional regions are listed out of
order: `[0x2000, 0x3000)` before `[0x1000, 0x2000)`. -/
def unsortedMap : List Descriptor := [uefiDescriptor 7 0x2000 1, uefiDescriptor 7 0x1000 1]

/-- C2 counterexample: for an arbitrary (unsorted) firmware map the
claim fails — `construct_memory_map` echoes the descriptor order, so
the output of `unsortedMap` is not sorted by start address. -/
theorem construct_memory_map_sorted_cex :
    ¬ (∀ out, constructMemoryMap 0x1000 0 0 unsortedMap [] = some out →
        out.length ≤ unsortedMap.length + 4 ∧
        List.Pairwise (fun r s => r.start ≤ s.start) out ∧
        List.Pairwise (fun r s => r.stop ≤ s.start ∨ s.stop ≤ r.start) out) := by
  intro hclaim
  have h := hclaim
    [{ start := 0x2000, stop := 0x3000, kind := MemoryRegionKind.Usable },
     { start := 0x1000, stop := 0x2000, kind := MemoryRegionKind.Usable }]
    (by decide)
  have h2 := h.2.1
  revert h2
  decide

/-- Witness for the amended C2 theorem at a concrete sorted input. -/
theorem construct_memory_map_sorted_disjoint_bound_witness :
    ([{ start := 0x3000, stop := 0x5000, kind := MemoryRegionKind.Usable }] :
        List MemoryRegion).length ≤ [uefiDescriptor 7 0x3000 2].length + 4 ∧
    List.Pairwise (fun r s : MemoryRegion => r.start ≤ s.start)
      [{ start := 0x3000, stop := 0x5000, kind := MemoryRegionKind.Usable }] ∧
    List.Pairwise (fun r s : MemoryRegion => r.stop ≤ s.start ∨ s.stop ≤ r.start)
      [{ start := 0x3000, stop := 0x5000, kind := MemoryRegionKind.Usable }] :=
  construct_memory_map_sorted_disjoint_bound 0x1000 0 0 [uefiDescriptor 7 0x3000 2]
    (by decide)
    [{ start := 0x3000, stop := 0x5000, kind := MemoryRegionKind.Usable }] (by decide)

end Initium

namespace Initium

/-- Iterated `allocate_frame`: perform `k` allocation calls, collecting
the results. -/
def allocateN : Nat → AllocState → List (Option Nat) × AllocState
  | 0, s => ([], s)
  | k + 1, s =>
    let r := allocateFrame s
    let rest := allocateN k r.2
    (r.1 :: rest.1, rest.2)

theorem allocateFrameFromDescriptor_mono (nextFrame : Nat) (d : Descriptor) :
    nextFrame ≤ (allocateFrameFromDescriptor nextFrame d).2 := by
  simp only [allocateFrameFromDescriptor]
  split_ifs <;> simp <;> omega

theorem allocateLoop_mono : ∀ (ds : List Descriptor) (nextFrame : Nat),
    nextFrame ≤ (allocateLoop ds nextFrame).2.2.2 := by
  intro ds
  induction ds with
  | nil =>
    intro nf
    simp [allocateLoop]
  | cons d rest ih =>
    intro nf
    unfold allocateLoop
    split_ifs with h
    · exact ih nf
    · have hm := allocateFrameFromDescriptor_mono nf d
      cases hr : allocateFrameFromDescriptor nf d with
      | mk r nf2 =>
        rw [hr] at hm
        cases r with
        | some f => exact hm
        | none => exact le_trans hm (ih nf2)

theorem allocateFrame_mono (s : AllocState) :
    s.nextFrame ≤ (allocateFrame s).2.nextFrame := by
  cases hcd : s.currentDescriptor with
  | none =>
    simp only [allocateFrame, hcd]
    exact allocateLoop_mono s.memoryMap s.nextFrame
  | some d =>
    have hm := allocateFrameFromDescriptor_mono s.nextFrame d
    cases hr : allocateFrameFromDescriptor s.nextFrame d with
    | mk r nf2 =>
      rw [hr] at hm
      simp only [allocateFrame, hcd, hr]
      cases r with
      | some f => exact hm
      | none => exact le_trans hm (allocateLoop_mono s.memoryMap nf2)

theorem allocateFrame_in_descriptor (s : AllocState) (d : Descriptor)
    (hcd : s.currentDescriptor = some d)
    (h1 : d.start / pageSize ≤ s.nextFrame)
    (h2 : s.nextFrame ≤ (d.start + d.len - 1) / pageSize) :
    allocateFrame s = (some s.nextFrame, { s with nextFrame := s.nextFrame + 1 }) := by
  have hafd : allocateFrameFromDescriptor s.nextFrame d =
      (some s.nextFrame, s.nextFrame + 1) := by
    have hnf : (if s.nextFrame < d.start / pageSize then d.start / pageSize
        else s.nextFrame) = s.nextFrame := if_neg (by omega)
    simp only [allocateFrameFromDescriptor, hnf]
    rw [if_pos h2]
  simp only [allocateFrame, hcd, hafd]

theorem allocateN_exact : ∀ (k : Nat) (s : AllocState) (d : Descriptor),
    s.currentDescriptor = some d →
    d.start / pageSize ≤ s.nextFrame →
    s.nextFrame + k ≤ (d.start + d.len - 1) / pageSize + 1 →
    (∀ r ∈ (allocateN k s).1, r.isSome) ∧
      (allocateN k s).2.nextFrame = s.nextFrame + k ∧
      (allocateN k s).2.currentDescriptor = some d := by
  intro k
  induction k with
  | zero =>
    intro s d hcd h1 h2
    refine ⟨?_, rfl, hcd⟩
    intro r hr
    exact absurd hr (List.not_mem_nil r)
  | succ k ih =>
    intro s d hcd h1 h2
    have hstep := allocateFrame_in_descriptor s d hcd h1 (by omega)
    have ihs := ih { s with nextFrame := s.nextFrame + 1 } d hcd (by dsimp; omega)
      (by dsimp; omega)
    unfold allocateN
    rw [hstep]
    dsimp only
    refine ⟨?_, ?_, ?_⟩
    · intro r hr
      rcases List.mem_cons.mp hr with rfl | hr
      · rfl
      · exact ihs.1 r hr
    · rw [ihs.2.1]
      dsimp
      omega
    · exact ihs.2.2

/-- C4: `next_frame` never decreases across any `allocate_frame`
call, and after `k` successful allocations whose frames all lie
within the contiguous ground of the current usable descriptor,
`next_frame` has advanced by exactly `k * 4096` bytes. -/
theorem allocate_frame_monotone_and_exact_advance :
    (∀ s : AllocState, s.nextFrame ≤ (allocateFrame s).2.nextFrame) ∧
    (∀ (k : Nat) (s : AllocState) (d : Descriptor),
      s.currentDescriptor = some d →
      d.start / pageSize ≤ s.nextFrame →
      s.nextFrame + k ≤ (d.start + d.len - 1) / pageSize + 1 →
      (∀ r ∈ (allocateN k s).1, r.isSome) ∧
        pageSize * (allocateN k s).2.nextFrame = pageSize * s.nextFrame + k * pageSize) := by
  refine ⟨allocateFrame_mono, ?_⟩
  intro k s d hcd h1 h2
  have h := allocateN_exact k s d hcd h1 h2
  refine ⟨h.1, ?_⟩
  rw [h.2.1]
  ring

/-- A concrete allocator state sitting inside the usable descriptor
`[0x1000, 0x5000)` with `next_frame` = frame 1. -/
def allocDemoState : AllocState :=
  { original := [uefiDescriptor 7 0x1000 4]
    memoryMap := []
    currentDescriptor := some (uefiDescriptor 7 0x1000 4)
    nextFrame := 1 }

/-- Witness for C4: two successful allocations advance `next_frame`
by exactly 2 * 4096 bytes. -/
theorem allocate_frame_monotone_and_exact_advance_witness :
    (∀ r ∈ (allocateN 2 allocDemoState).1, r.isSome) ∧
      pageSize * (allocateN 2 allocDemoState).2.nextFrame =
        pageSize * allocDemoState.nextFrame + 2 * pageSize :=
  allocate_frame_monotone_and_exact_advance.2 2 allocDemoState
    (uefiDescriptor 7 0x1000 4) rfl (by decide) (by decide)

end Initium

namespace Initium

/-- `Entries` (`initium/src/entries.rs`): the 512 level-4 slot flags,
as a list of booleans of length 512. -/
structure Entries where
  entry_state : List Bool
deriving Repr, DecidableEq

/-- `Entries::new`: all slots clear except slot 0, which is
pre-reserved. -/
def Entries.new : Entries :=
  { entry_state := (List.replicate 512 false).set 0 true }

/-- The scan of `get_free_entries`: index of the first window of
`num` consecutive unset flags (`windows(num).enumerate.filter(...)`),
`none` when no such window exists (including the `num = 0` case, on
which the source `windows` call panics). -/
def findFreeRun (num : Nat) : List Bool → Option Nat
  | [] => none
  | b :: t =>
    if num ≠ 0 ∧ num ≤ (b :: t).length ∧ ((b :: t).take num).all (fun x => x = false) then
      some 0
    else
      (findFreeRun num t).map (fun i => i + 1)

/-- The marking loop of `get_free_entries`: set flags
`idx, idx+1, ..., idx+num-1`. -/
def markRange (idx num : Nat) (l : List Bool) : List Bool :=
  (List.range num).foldl (fun acc i => acc.set (idx + i) true) l

/-- `Entries::get_free_entries` (`initium/src/entries.rs`, lines
58-76): find the first run of `num` free slots, mark it used and
return its first index; the `panic!` when no run exists is `none`. -/
def getFreeEntries (num : Nat) (e : Entries) : Option (Nat × Entries) :=
  match findFreeRun num e.entry_state with
  | none => none
  | some idx => some (idx, { entry_state := markRange idx num e.entry_state })

theorem getD_set_true (l : List Bool) (j i : Nat) :
    (l.set j true).getD i false = if j = i ∧ j < l.length then true else l.getD i false := by
  by_cases hij : j = i
  · subst hij
    by_cases hj : j < l.length
    · rw [if_pos ⟨rfl, hj⟩, List.getD_eq_getElem _ _ (by simpa using hj)]
      simp [List.getElem_set]
    · rw [if_neg (by tauto), List.getD_eq_default _ _ (by simpa using Nat.le_of_not_lt hj),
        List.getD_eq_default _ _ (Nat.le_of_not_lt hj)]
  · rw [if_neg (by tauto)]
    by_cases hi : i < l.length
    · rw [List.getD_eq_getElem _ _ (by simpa using hi), List.getD_eq_getElem _ _ hi]
      simp [List.getElem_set, hij]
    · rw [List.getD_eq_default _ _ (by simpa using Nat.le_of_not_lt hi),
        List.getD_eq_default _ _ (Nat.le_of_not_lt hi)]

theorem markRange_succ (idx n : Nat) (l : List Bool) :
    markRange idx (n + 1) l = (markRange idx n l).set (idx + n) true := by
  unfold markRange
  rw [List.range_succ, List.foldl_append]
  rfl

theorem markRange_length (idx num : Nat) (l : List Bool) :
    (markRange idx num l).length = l.length := by
  induction num with
  | zero => rfl
  | succ n ih => rw [markRange_succ, List.length_set, ih]

theorem markRange_getD (idx num : Nat) (l : List Bool) (i : Nat) :
    (markRange idx num l).getD i false =
      if idx ≤ i ∧ i < idx + num ∧ i < l.length then true else l.getD i false := by
  induction num with
  | zero =>
    rw [if_neg (by omega)]
    rfl
  | succ n ih =>
    rw [markRange_succ, getD_set_true, markRange_length, ih]
    split_ifs <;> first | rfl | omega

theorem all_false_getD (l : List Bool) (h : l.all (fun x => x = false) = true) (i : Nat) :
    l.getD i false = false := by
  induction l generalizing i with
  | nil => rfl
  | cons b t ih =>
    rw [List.all_cons, Bool.and_eq_true] at h
    cases i with
    | zero =>
      rw [List.getD_cons_zero]
      simpa using h.1
    | succ j =>
      rw [List.getD_cons_succ]
      exact ih h.2 j

theorem getD_take (l : List Bool) (num i : Nat) (h : i < num) :
    (l.take num).getD i false = l.getD i false := by
  induction l generalizing num i with
  | nil => simp
  | cons b t ih =>
    cases num with
    | zero => omega
    | succ n =>
      cases i with
      | zero => rfl
      | succ j =>
        rw [List.take_succ_cons, List.getD_cons_succ, List.getD_cons_succ]
        exact ih n j (by omega)

theorem findFreeRun_sound : ∀ (l : List Bool) (num idx : Nat),
    findFreeRun num l = some idx →
    1 ≤ num ∧ idx + num ≤ l.length ∧
      ∀ i, idx ≤ i → i < idx + num → l.getD i false = false := by
  intro l
  induction l with
  | nil =>
    intro num idx h
    exact absurd h (by simp [findFreeRun])
  | cons b t ih =>
    intro num idx h
    unfold findFreeRun at h
    split_ifs at h with hc
    · injection h with h
      subst h
      obtain ⟨h0, hlen, hall⟩ := hc
      refine ⟨by omega, by simpa using hlen, ?_⟩
      intro i hi1 hi2
      have hgd := all_false_getD _ hall i
      rw [getD_take _ _ _ (by omega)] at hgd
      exact hgd
    · rcases Option.map_eq_some'.mp h with ⟨j, hj, rfl⟩
      obtain ⟨h1, h2, h3⟩ := ih num j hj
      refine ⟨h1, by simp only [List.length_cons]; omega, ?_⟩
      intro i hi1 hi2
      cases i with
      | zero => omega
      | succ i2 =>
        rw [List.getD_cons_succ]
        exact h3 i2 (by omega) (by omega)

theorem getFreeEntries_sound (num : Nat) (e : Entries) (idx : Nat) (e2 : Entries)
    (h : getFreeEntries num e = some (idx, e2)) :
    1 ≤ num ∧ idx + num ≤ e.entry_state.length ∧
      (∀ i, idx ≤ i → i < idx + num → e.entry_state.getD i false = false) ∧
      (∀ i, e2.entry_state.getD i false =
        if idx ≤ i ∧ i < idx + num then true else e.entry_state.getD i false) ∧
      e2.entry_state.length = e.entry_state.length := by
  unfold getFreeEntries at h
  cases hf : findFreeRun num e.entry_state with
  | none => rw [hf] at h; exact absurd h (by simp)
  | some j =>
    rw [hf] at h
    injection h with h
    injection h with h1 h2
    subst h1
    obtain ⟨ha, hb, hc⟩ := findFreeRun_sound e.entry_state num j hf
    refine ⟨ha, hb, hc, ?_, ?_⟩
    · intro i
      rw [← h2]
      dsimp only
      rw [markRange_getD]
      split_ifs <;> first | rfl | omega
    · rw [← h2]
      dsimp only
      exact markRange_length j num e.entry_state

end Initium

namespace Initium

/-- A sequence of `get_free_entries` calls, collecting each returned
index together with the requested count; a panicking call aborts the
sequence (`none`). -/
def runGetFreeEntries : List Nat → Entries → Option (List (Nat × Nat) × Entries)
  | [], e => some ([], e)
  | n :: ns, e =>
    match getFreeEntries n e with
    | none => none
    | some (idx, e2) =>
      match runGetFreeEntries ns e2 with
      | none => none
      | some (rs, e3) => some ((idx, n) :: rs, e3)

/-- Two index ranges (start, count) are disjoint. -/
def rangesDisjoint (p q : Nat × Nat) : Prop :=
  ∀ i : Nat, ¬ (p.1 ≤ i ∧ i < p.1 + p.2 ∧ q.1 ≤ i ∧ i < q.1 + q.2)

theorem runGetFreeEntries_inv : ∀ (ns : List Nat) (e : Entries) (rs : List (Nat × Nat))
    (e3 : Entries), runGetFreeEntries ns e = some (rs, e3) →
    (∀ i, e.entry_state.getD i false = true → e3.entry_state.getD i false = true) ∧
    (∀ p ∈ rs, 1 ≤ p.2 ∧ p.1 + p.2 ≤ e.entry_state.length ∧
      ∀ i, p.1 ≤ i → i < p.1 + p.2 → e.entry_state.getD i false = false) ∧
    List.Pairwise rangesDisjoint rs := by
  intro ns
  induction ns with
  | nil =>
    intro e rs e3 h
    unfold runGetFreeEntries at h
    injection h with h
    injection h with h1 h2
    subst h1
    subst h2
    refine ⟨fun i hi => hi, ?_, List.Pairwise.nil⟩
    intro p hp
    exact absurd hp (List.not_mem_nil p)
  | cons n ns ih =>
    intro e rs e3 h
    unfold runGetFreeEntries at h
    cases hg : getFreeEntries n e with
    | none =>
      simp only [hg] at h
      exact absurd h (by simp)
    | some r =>
      obtain ⟨idx, e2⟩ := r
      simp only [hg] at h
      cases hrun : runGetFreeEntries ns e2 with
      | none =>
        simp only [hrun] at h
        exact absurd h (by simp)
      | some r2 =>
          obtain ⟨rs2, e4⟩ := r2
          simp only [hrun] at h
          injection h with h
          injection h with h1 h2
          subst h1
          subst h2
          obtain ⟨hg1, hg2, hg3, hg4, hg5⟩ := getFreeEntries_sound n e idx e2 hg
          obtain ⟨ih1, ih2, ih3⟩ := ih e2 rs2 e4 hrun
          have hmono : ∀ i, e.entry_state.getD i false = true →
              e4.entry_state.getD i false = true := by
            intro i hi
            refine ih1 i ?_
            rw [hg4 i]
            split_ifs with hcond
            · rfl
            · exact hi
          refine ⟨hmono, ?_, ?_⟩
          · intro p hp
            rcases List.mem_cons.mp hp with rfl | hp
            · exact ⟨hg1, hg2, hg3⟩
            · obtain ⟨hp1, hp2, hp3⟩ := ih2 p hp
              refine ⟨hp1, by omega, ?_⟩
              intro i hi1 hi2
              have h2' := hp3 i hi1 hi2
              by_contra hcontra
              have htrue : e.entry_state.getD i false = true := by
                cases hv : e.entry_state.getD i false with
                | false => exact absurd hv hcontra
                | true => rfl
              have : e2.entry_state.getD i false = true := by
                rw [hg4 i]
                split_ifs with hcond
                · rfl
                · exact htrue
              rw [this] at h2'
              exact absurd h2' (by simp)
          · rw [List.pairwise_cons]
            refine ⟨?_, ih3⟩
            intro q hq i
            rintro ⟨hi1, hi2, hi3, hi4⟩
            have hfree := (ih2 q hq).2.2 i hi3 hi4
            have hmarked : e2.entry_state.getD i false = true := by
              rw [hg4 i]
              rw [if_pos ⟨hi1, hi2⟩]
            rw [hmarked] at hfree
            exact absurd hfree (by simp)

/-- C5: starting from `Entries::new`, any successful sequence of
`get_free_entries` calls returns pairwise disjoint index ranges, none
of which contains slot 0, and slot 0 stays set after every call. -/
theorem get_free_entries_disjoint_slot0 (ns : List Nat) (rs : List (Nat × Nat)) (e3 : Entries)
    (h : runGetFreeEntries ns Entries.new = some (rs, e3)) :
    List.Pairwise rangesDisjoint rs ∧
    (∀ p ∈ rs, ¬ (p.1 ≤ 0 ∧ 0 < p.1 + p.2)) ∧
    e3.entry_state.getD 0 false = true := by
  have hnew : Entries.new.entry_state.getD 0 false = true := by decide
  obtain ⟨h1, h2, h3⟩ := runGetFreeEntries_inv ns Entries.new rs e3 h
  refine ⟨h3, ?_, h1 0 hnew⟩
  rintro p hp ⟨hp1, hp2⟩
  have := (h2 p hp).2.2 0 hp1 hp2
  rw [hnew] at this
  exact absurd this (by simp)

/-- Witness for C5: two calls requesting 2 and then 3 slots return
ranges [1, 3) and [3, 6). -/
theorem get_free_entries_disjoint_slot0_witness :
    List.Pairwise rangesDisjoint [(1, 2), (3, 3)] ∧
    (∀ p ∈ [(1, 2), (3, 3)], ¬ (p.1 ≤ 0 ∧ 0 < p.1 + p.2)) ∧
    (Entries.mk (markRange 3 3 (markRange 1 2 Entries.new.entry_state))).entry_state.getD 0 false
      = true :=
  get_free_entries_disjoint_slot0 [2, 3] [(1, 2), (3, 3)]
    (Entries.mk (markRange 3 3 (markRange 1 2 Entries.new.entry_state))) (by decide)

end Initium

namespace Initium

/-- Size of the virtual range covered by one level-4 entry:
`4096 * 512 * 512 * 512` = 2^39 bytes. -/
def level4Size : Nat := 4096 * 512 * 512 * 512

/-- `u64::is_power_of_two` (exactly one bit set): over the `u64`
domain this is equivalent to being `2 ^ k` for some `k < 64`. -/
def isPow2 (n : Nat) : Bool := (List.range 64).any (fun k => n = 2 ^ k)

/-- The sign extension of bit 47 performed by
`VirtAddr::new_truncate` (`x86_64` crate): truncate to 48 bits and
sign-extend into bits 48..63. -/
def canonicalVirtAddr (a : Nat) : Nat :=
  let t := a % 2 ^ 48
  if t < 2 ^ 47 then t else t + (2 ^ 64 - 2 ^ 48)

/-- `Page::from_page_table_indices_1gib(p4, p3).start_address()`:
the canonical virtual address with the given level-4 and level-3
indices and all lower bits zero. -/
def fromPageTableIndices1GiB (p4 p3 : Nat) : Nat :=
  canonicalVirtAddr (p4 * 2 ^ 39 + p3 * 2 ^ 30)

/-- `Entries::get_free_address` (`initium/src/entries.rs`, lines
78-89): assert the alignment is a power of two (else panic = `none`),
acquire `ceil(size / level4Size)` level-4 entries and return the
1-GiB-aligned start address of the acquired range. -/
def getFreeAddress (size alignment : Nat) (e : Entries) : Option (Nat × Entries) :=
  if isPow2 alignment then
    match getFreeEntries ((size + (level4Size - 1)) / level4Size) e with
    | none => none
    | some (idx, e2) => some (fromPageTableIndices1GiB idx 0, e2)
  else none

/-- `mapping_addr` (`initium/src/initium.rs`, lines 84-96): get a
free address and check the requested alignment, returning `Ok` or
`Err` accordingly. -/
def mappingAddr (size alignment : Nat) (e : Entries) : Option (Except Nat Nat × Entries) :=
  match getFreeAddress size alignment e with
  | none => none
  | some (addr, e2) =>
    if addr % alignment = 0 then some (Except.ok addr, e2)
    else some (Except.error addr, e2)

/-- `mapping_addr_page_aligned` (`initium/src/initium.rs`, lines
73-82): as `mapping_addr` with page-size alignment; the `Err` branch
panics (`none`). -/
def mappingAddrPageAligned (size : Nat) (e : Entries) : Option (Nat × Entries) :=
  match mappingAddr size pageSize e with
  | none => none
  | some (Except.ok addr, e2) => some (addr, e2)
  | some (Except.error _, _) => none

/-- C10: for every positive size and power-of-two alignment up to
2^39, a successful `get_free_address` returns an address that is a
multiple of 2^39 (level-4 slot boundary: p3/p2/p1 indices and page
offset all zero), hence satisfies the requested alignment, and
`mapping_addr` takes its `Ok` branch on the same inputs. -/
theorem get_free_address_level4_aligned (size alignment k : Nat) (e : Entries)
    (_hsize : 0 < size) (hk : k ≤ 39) (ha : alignment = 2 ^ k)
    (addr : Nat) (e2 : Entries) (h : getFreeAddress size alignment e = some (addr, e2)) :
    addr % 2 ^ 39 = 0 ∧ addr % alignment = 0 ∧
      mappingAddr size alignment e = some (Except.ok addr, e2) := by
  have hdvd : 2 ^ 39 ∣ addr := by
    unfold getFreeAddress at h
    split_ifs at h with hp
    cases hg : getFreeEntries ((size + (level4Size - 1)) / level4Size) e with
    | none => rw [hg] at h; exact absurd h (by simp)
    | some r =>
      obtain ⟨idx, e3⟩ := r
      rw [hg] at h
      injection h with h
      injection h with h1 h2
      subst h1
      unfold fromPageTableIndices1GiB canonicalVirtAddr
      dsimp only
      split_ifs with hc
      · have : (2 : Nat) ^ 48 = 2 ^ 39 * 2 ^ 9 := by norm_num
        rw [this, Nat.mul_comm idx (2 ^ 39), Nat.zero_mul, Nat.add_zero,
          Nat.mul_mod_mul_left]
        exact dvd_mul_right _ _
      · have h48 : (2 : Nat) ^ 48 = 2 ^ 39 * 2 ^ 9 := by norm_num
        have hmod : 2 ^ 39 ∣ (idx * 2 ^ 39 + 0 * 2 ^ 30) % 2 ^ 48 := by
          rw [h48, Nat.mul_comm idx (2 ^ 39), Nat.zero_mul, Nat.add_zero,
            Nat.mul_mod_mul_left]
          exact dvd_mul_right _ _
        have hhigh : (2 : Nat) ^ 39 ∣ 2 ^ 64 - 2 ^ 48 := by norm_num
        exact Nat.dvd_add hmod hhigh
  have hdvd39 : (2 : Nat) ^ 39 % 2 ^ 39 = 0 := Nat.mod_self _
  have halign : addr % alignment = 0 := by
    rw [ha]
    have hka : (2 : Nat) ^ k ∣ addr := dvd_trans (pow_dvd_pow 2 hk) hdvd
    omega
  have h39 : addr % 2 ^ 39 = 0 := by
    omega
  refine ⟨h39, halign, ?_⟩
  unfold mappingAddr
  simp only [h]
  rw [if_pos halign]

end Initium

namespace Initium

/-- Witness for C10: an 8 KiB request with 4 KiB alignment on a fresh
tracker returns address 2^39 (level-4 slot 1) and `mapping_addr`
succeeds. -/
theorem get_free_address_level4_aligned_witness :
    (2 ^ 39 : Nat) % 2 ^ 39 = 0 ∧ (2 ^ 39 : Nat) % 4096 = 0 ∧
      mappingAddr 8192 4096 Entries.new =
        some (Except.ok (2 ^ 39), Entries.mk (markRange 1 1 Entries.new.entry_state)) :=
  get_free_address_level4_aligned 8192 4096 12 Entries.new (by decide) (by decide)
    (by norm_num) (2 ^ 39) (Entries.mk (markRange 1 1 Entries.new.entry_state)) (by decide)

end Initium

namespace Initium

/-- The register state relevant to the kernel-entry contract. -/
structure RegState where
  cr3 : Nat
  rsp : Nat
  rip : Nat
  rdi : Nat
deriving Repr, DecidableEq

/-- `Addresses` (`initium/src/initium.rs`, lines 53-58): the values
handed to `context_switch`. -/
structure Addresses where
  page_table : Nat
  stack_top : Nat
  entry_point : Nat
  boot_info : Nat
deriving Repr, DecidableEq

/-- `context_switch` (`initium/src/initium.rs`, lines 60-71).  The
inline asm is `mov cr3, pt; mov rsp, stack_top; push 0; jmp entry`
with the boot-info pointer pinned in `rdi`; `push 0` decrements `rsp`
by 8 (storing a zero return address) before the jump, so at kernel
entry `rsp = stack_top - 8`. -/
def contextSwitch (a : Addresses) : RegState :=
  { cr3 := a.page_table
    rsp := a.stack_top - 8
    rip := a.entry_point
    rdi := a.boot_info }

/-- `switch_to_kernel` (`initium/src/initium.rs`, lines 377-396):
package the kernel level-4 frame, the stack top, the entry point and
the boot-info pointer and perform the context switch. -/
def switchToKernel (kernelLevel4Frame stackTop entryPoint bootInfoPtr : Nat) : RegState :=
  contextSwitch
    { page_table := kernelLevel4Frame
      stack_top := stackTop
      entry_point := entryPoint
      boot_info := bootInfoPtr }

/-- C8 counterexample: at kernel entry RSP does *not* equal
stack_top — the `push 0` in the context-switch asm has moved it down
by 8 (here stack_top = 0x10000 but RSP = 0xFFF8). -/
theorem context_switch_rsp_cex :
    ¬ ((switchToKernel 0x2000 0x10000 0x40000000 0x5000).rsp = 0x10000 ∧
        (switchToKernel 0x2000 0x10000 0x40000000 0x5000).rsp % 16 = 0 ∧
        (switchToKernel 0x2000 0x10000 0x40000000 0x5000).rdi = 0x5000 ∧
        (switchToKernel 0x2000 0x10000 0x40000000 0x5000).rip = 0x40000000) := by
  decide

/-- C8 amended: at kernel entry after the context switch, RSP equals
stack_top - 8 (the asm pushes a zero return address after loading
stack_top, so RSP is 8 mod 16 for a 16-byte-aligned stack top), RDI
holds the boot-info pointer, RIP is the entry point and CR3 the
kernel level-4 frame. -/
theorem context_switch_registers (pt st ep bi : Nat) (hst : st % 16 = 0) (h16 : 16 ≤ st) :
    (switchToKernel pt st ep bi).rsp = st - 8 ∧
    (switchToKernel pt st ep bi).rsp % 16 = 8 ∧
    (switchToKernel pt st ep bi).rdi = bi ∧
    (switchToKernel pt st ep bi).rip = ep ∧
    (switchToKernel pt st ep bi).cr3 = pt := by
  unfold switchToKernel contextSwitch
  refine ⟨rfl, ?_, rfl, rfl, rfl⟩
  dsimp only
  omega

/-- Witness for the amended C8 theorem at concrete register values. -/
theorem context_switch_registers_witness :
    (switchToKernel 0x7000 0x8000014FF0 0x8000001000 0x9000002000).rsp
        = 0x8000014FF0 - 8 ∧
    (switchToKernel 0x7000 0x8000014FF0 0x8000001000 0x9000002000).rsp % 16 = 8 ∧
    (switchToKernel 0x7000 0x8000014FF0 0x8000001000 0x9000002000).rdi = 0x9000002000 ∧
    (switchToKernel 0x7000 0x8000014FF0 0x8000001000 0x9000002000).rip = 0x8000001000 ∧
    (switchToKernel 0x7000 0x8000014FF0 0x8000001000 0x9000002000).cr3 = 0x7000 :=
  context_switch_registers 0x7000 0x8000014FF0 0x8000001000 0x9000002000
    (by decide) (by decide)

end Initium

namespace Initium

/-- The page-table flag bits this bootloader reads or writes:
PRESENT, WRITABLE, NO_EXECUTE and the internal COPIED marker
(`BIT_9`, `initium/src/kernel.rs` line 73). -/
structure Flags where
  present : Bool
  writable : Bool
  noExec : Bool
  copied : Bool
deriving Repr, DecidableEq

/-- `PRESENT | WRITABLE`. -/
def presentWritable : Flags :=
  { present := true, writable := true, noExec := false, copied := false }

/-- `PRESENT` alone (identity mappings of the trampoline and GDT). -/
def presentOnly : Flags :=
  { present := true, writable := false, noExec := false, copied := false }

/-- Machine state for the loader and mapping orchestrator: physical
memory (byte at each physical address), the kernel page table as a
map from page number to (frame number, flags) — the four-level
structure and its intermediate-table frames are abstracted into a
flat partial map, as are the `Mapper` trait's semantics (`map_to`
fails on an already-mapped page, `translate` looks up the entry) —
and the bump frame allocator state. -/
structure Machine where
  physMem : Nat → Nat
  pageTable : Nat → Option (Nat × Flags)
  alloc : AllocState

/-- `Mapper::map_to`: fails if the page is already mapped. -/
def mapTo (m : Machine) (page frame : Nat) (fl : Flags) : Except String Machine :=
  match m.pageTable page with
  | some _ => Except.error "map_to failed"
  | none =>
    Except.ok { m with
      pageTable := fun q => if q = page then some (frame, fl) else m.pageTable q }

/-- `Mapper::update_flags`: fails if the page is not mapped. -/
def updateFlags (m : Machine) (page : Nat) (fl : Flags) : Except String Machine :=
  match m.pageTable page with
  | none => Except.error "update_flags failed"
  | some (f, _) =>
    Except.ok { m with
      pageTable := fun q => if q = page then some (f, fl) else m.pageTable q }

/-- Read one byte of virtual memory through the page table
(the per-byte view of `Inner::copy_from`). -/
def readByte (m : Machine) (a : Nat) : Option Nat :=
  match m.pageTable (a / pageSize) with
  | none => none
  | some (f, _) => some (m.physMem (f * pageSize + a % pageSize))

/-- Read `n` consecutive bytes of virtual memory.  `Inner::copy_from`
walks the range page by page and copies each page's sub-slice from
the translated frame; byte `i` of the result comes from the frame of
the page containing `addr + i` at that page offset, which is exactly
this byte-wise form.  An unmapped page is the source's
`expect`-panic (`none`). -/
def readBytes (m : Machine) (a : Nat) : Nat → Option (List Nat)
  | 0 => some []
  | n + 1 =>
    match readByte m a, readBytes m (a + 1) n with
    | some b, some bs => some (b :: bs)
    | _, _ => none

/-- Overwrite `bs.length` bytes of physical memory starting at
`base` (a `copy_from_slice` into the frame). -/
def writeBytesPhys (mem : Nat → Nat) (base : Nat) (bs : List Nat) : Nat → Nat :=
  fun a => if base ≤ a ∧ a < base + bs.length then bs.getD (a - base) 0 else mem a

/-- Zero-fill `len` bytes of physical memory starting at `base`. -/
def zeroRangePhys (mem : Nat → Nat) (base len : Nat) : Nat → Nat :=
  fun a => if base ≤ a ∧ a < base + len then 0 else mem a

/-- `Inner::make_mut` (`initium/src/kernel.rs`, lines 272-311):
translate the page (panic if unmapped); if its flags already carry
COPIED return the existing frame; otherwise allocate a fresh frame
(panic on exhaustion), copy the 4 KiB of the old frame into it,
unmap the page and re-map it to the new frame with COPIED set. -/
def makeMut (m : Machine) (p : Nat) : Except String (Nat × Machine) :=
  match m.pageTable p with
  | none => Except.error "page is not mapped"
  | some (f, fl) =>
    if fl.copied then Except.ok (f, m)
    else
      match allocateFrame m.alloc with
      | (none, _) => Except.error "frame allocation failed"
      | (some nf, alloc2) =>
        let mem2 := fun a =>
          if nf * pageSize ≤ a ∧ a < nf * pageSize + pageSize
          then m.physMem (f * pageSize + (a - nf * pageSize))
          else m.physMem a
        Except.ok (nf,
          { physMem := mem2
            pageTable := fun q =>
              if q = p then some (nf, { fl with copied := true }) else m.pageTable q
            alloc := alloc2 })

/-- One page step of `Inner::copy_to`: `make_mut` the page, then copy
the sub-slice of `buf` that falls inside page `p` into the (new)
frame at the corresponding offset. -/
def copyToPage (m : Machine) (addr : Nat) (buf : List Nat) (p : Nat) :
    Except String Machine :=
  match makeMut m p with
  | Except.error e => Except.error e
  | Except.ok (nf, m2) =>
    let pageStart := p * pageSize
    let startCopy := max addr pageStart
    let endInclCopy := min (addr + buf.length - 1) (pageStart + (pageSize - 1))
    let slice := (buf.drop (startCopy - addr)).take (endInclCopy + 1 - startCopy)
    Except.ok { m2 with
      physMem := writeBytesPhys m2.physMem (nf * pageSize + (startCopy - pageStart)) slice }

/-- The page loop of `Inner::copy_to`, by page count. -/
def copyToLoop (addr : Nat) (buf : List Nat) : Machine → Nat → Nat → Except String Machine
  | m, _, 0 => Except.ok m
  | m, p, k + 1 =>
    match copyToPage m addr buf p with
    | Except.error e => Except.error e
    | Except.ok m2 => copyToLoop addr buf m2 (p + 1) k

/-- `Inner::copy_to` (`initium/src/kernel.rs`, lines 235-270): write
`buf` to virtual `addr` page by page through `make_mut`.  An empty
buffer underflows `buf.len() - 1` in the source (panic). -/
def copyTo (m : Machine) (addr : Nat) (buf : List Nat) : Except String Machine :=
  if buf.length = 0 then Except.error "empty buffer"
  else
    let pStart := addr / pageSize
    let pEnd := (addr + buf.length - 1) / pageSize
    copyToLoop addr buf m pStart (pEnd + 1 - pStart)

/-- Little-endian byte decomposition (`u64::to_ne_bytes` on x86_64),
`width` bytes of `v`. -/
def leBytes : Nat → Nat → List Nat
  | 0, _ => []
  | n + 1, v => (v % 256) :: leBytes n (v / 256)

/-- Little-endian byte recomposition. -/
def leDecode : List Nat → Nat
  | [] => 0
  | b :: bs => b % 256 + 256 * leDecode bs

end Initium

namespace Initium

/-- Program header types distinguished by the loader. -/
inductive SegmentType where
  | load : SegmentType
  | dynamic : SegmentType
  | tls : SegmentType
  | gnuRelro : SegmentType
  | otherSeg : SegmentType
deriving Repr, DecidableEq

/-- The parsed view of one ELF program header (`xmas_elf`'s
`ProgramHeader` accessors used by the loader).  For `PT_DYNAMIC`
segments, `dynEntries` is the parsed `(tag, value)` array that
`segment.get_data` yields from the file bytes. -/
structure Phdr where
  ptype : SegmentType
  offset : Nat
  vaddr : Nat
  file_size : Nat
  mem_size : Nat
  is_execute : Bool
  is_write : Bool
  align : Nat
  dynEntries : List (Nat × Nat)
deriving Repr, DecidableEq

/-- ELF file types distinguished by `Loader::new`. -/
inductive ElfType where
  | executable : ElfType
  | sharedObject : ElfType
  | otherElf : ElfType
deriving Repr, DecidableEq

/-- The parsed view of the kernel ELF (`xmas_elf::ElfFile`). -/
structure ElfFile where
  etype : ElfType
  entry_point : Nat
  segments : List Phdr
deriving Repr, DecidableEq

/-- `Kernel` (`initium/src/kernel.rs`, lines 56-60): the parsed ELF
plus the raw slice start address and length. -/
structure Kernel where
  elf : ElfFile
  start_address : Nat
  len : Nat
deriving Repr, DecidableEq

/-- `synapse::tls_template::TlsTemplate`. -/
structure TlsTemplate where
  start_address : Nat
  file_size : Nat
  mem_size : Nat
deriving Repr, DecidableEq

/-- `VirtualAddressOffset + u64` (`initium/src/kernel.rs`, lines
45-54) followed by `VirtAddr::new`: the `i128` sum must convert to
`u64` (`try_from(..).unwrap()`) and be a canonical virtual address
(bits 47..63 all equal), else the source panics. -/
def vAddr (voff : Int) (x : Nat) : Except String Nat :=
  let v : Int := voff + x
  if 0 ≤ v ∧ v < 2 ^ 64 ∧ (v < 2 ^ 47 ∨ 2 ^ 64 - 2 ^ 47 ≤ v) then
    Except.ok v.toNat
  else
    Except.error "invalid virtual address"

/-- `u64::try_from(i128).unwrap()` alone (the `VirtualAddressOffset`
`Add` impl without a `VirtAddr` constructor). -/
def u64Add (voff : Int) (x : Nat) : Except String Nat :=
  let v : Int := voff + x
  if 0 ≤ v ∧ v < 2 ^ 64 then Except.ok v.toNat
  else Except.error "virtual address offset overflow"

/-- `x86_64::align_up`. -/
def alignUp (a b : Nat) : Nat := ((a + b - 1) / b) * b

/-- `check_is_in_load` (`initium/src/kernel.rs`, lines 87-99):
succeeds iff `virt_offset` falls inside the `mem_size` range of some
LOAD segment. -/
def checkIsInLoad (elf : ElfFile) (virtOffset : Nat) : Except String Unit :=
  if elf.segments.any (fun s =>
      s.ptype = SegmentType.load && s.vaddr ≤ virtOffset && virtOffset - s.vaddr < s.mem_size)
  then Except.ok ()
  else Except.error "offset is not in load segment"

/-- Map `count` consecutive pages to `count` consecutive frames (the
frame loop of `handle_load_segment`). -/
def mapRange : Machine → Nat → Nat → Nat → Flags → Except String Machine
  | m, _, _, 0, _ => Except.ok m
  | m, p, f, k + 1, fl =>
    match mapTo m p f fl with
    | Except.error _ => Except.error "map_to failed"
    | Except.ok m2 => mapRange m2 (p + 1) (f + 1) k fl

/-- The fresh-frame loop of `handle_bss_section`: allocate a frame
(panic on exhaustion), zero-fill it, and map it with the segment
flags; repeated for `count` pages. -/
def bssLoop : Machine → Nat → Nat → Flags → Except String Machine
  | m, _, 0, _ => Except.ok m
  | m, p, k + 1, fl =>
    match allocateFrame m.alloc with
    | (none, _) => Except.error "frame allocation failed"
    | (some f, alloc2) =>
      let m2 : Machine :=
        { m with physMem := zeroRangePhys m.physMem (f * pageSize) pageSize, alloc := alloc2 }
      match mapTo m2 p f fl with
      | Except.error _ => Except.error "Failed to map new frame for bss memory"
      | Except.ok m3 => bssLoop m3 (p + 1) k fl

/-- `Inner::handle_bss_section` (`initium/src/kernel.rs`, lines
144-195): if the file/BSS boundary is not page-aligned, `make_mut`
the last file page and zero its tail; then allocate, zero and map a
fresh frame for every remaining BSS page. -/
def handleBssSection (m : Machine) (voff : Int) (seg : Phdr) (segFlags : Flags) :
    Except String Machine :=
  Except.bind (vAddr voff seg.vaddr) (fun vstart =>
    let zeroStart := vstart + seg.file_size
    let zeroEnd := vstart + seg.mem_size
    let dataBytesBeforeZero := zeroStart % pageSize
    Except.bind
      (if dataBytesBeforeZero ≠ 0 then
        Except.bind (makeMut m ((vstart + seg.file_size - 1) / pageSize)) (fun r =>
          Except.ok { r.2 with
            physMem := zeroRangePhys r.2.physMem (r.1 * pageSize + dataBytesBeforeZero)
              (pageSize - dataBytesBeforeZero) })
      else Except.ok m)
      (fun m2 =>
        let startPage := alignUp zeroStart pageSize / pageSize
        let endPage := (zeroEnd - 1) / pageSize
        bssLoop m2 startPage (endPage + 1 - startPage) segFlags))

/-- `Inner::handle_load_segment` (`initium/src/kernel.rs`, lines
106-142): map every frame of the file image of the segment to the
corresponding page at `voff + vaddr` with flags derived from the
segment (PRESENT always, NO_EXECUTE unless executable, WRITABLE if
writable), then handle BSS when `mem_size > file_size`. -/
def handleLoadSegment (m : Machine) (kernelOffset : Nat) (voff : Int) (seg : Phdr) :
    Except String Machine :=
  let physStart := kernelOffset + seg.offset
  let startFrame := physStart / pageSize
  let endFrame := (physStart + seg.file_size - 1) / pageSize
  Except.bind (vAddr voff seg.vaddr) (fun vstart =>
    let startPage := vstart / pageSize
    let segFlags : Flags :=
      { present := true
        writable := seg.is_write
        noExec := !seg.is_execute
        copied := false }
    Except.bind (mapRange m startPage startFrame (endFrame + 1 - startFrame) segFlags)
      (fun m2 =>
        if seg.mem_size > seg.file_size then handleBssSection m2 voff seg segFlags
        else Except.ok m2))

/-- `Inner::handle_tls_segment` (`initium/src/kernel.rs`, lines
350-356). -/
def handleTlsSegment (voff : Int) (seg : Phdr) : Except String TlsTemplate :=
  match u64Add voff seg.vaddr with
  | Except.error e => Except.error e
  | Except.ok v =>
    Except.ok { start_address := v, mem_size := seg.mem_size, file_size := seg.file_size }

end Initium

namespace Initium

/-- Canonical 64-bit virtual address: bits 47..63 all equal. -/
def isCanonical (a : Nat) : Bool :=
  a < 2 ^ 47 || (2 ^ 64 - 2 ^ 47 ≤ a && a < 2 ^ 64)

/-- Level-4 index of a virtual address (`VirtAddr::p4_index`). -/
def p4IndexOfAddr (a : Nat) : Nat := a / 2 ^ 39 % 512

/-- `Entries::mark_range_as_used` (`initium/src/entries.rs`, lines
39-52): set the flag of every level-4 slot from the slot of
`address` to the slot of `address + size - 1`. -/
def markRangeAsUsed (address size : Nat) (l : List Bool) : List Bool :=
  markRange (p4IndexOfAddr address)
    (p4IndexOfAddr (address + size - 1) + 1 - p4IndexOfAddr address) l

/-- `Entries::mark_segments` (`initium/src/entries.rs`, lines 26-37):
mark the slots of every segment with positive `mem_size`, translated
by the PIE offset.  The intermediate `VirtAddr` constructions panic
on non-canonical addresses. -/
def markSegmentsE : List Phdr → Int → Entries → Except String Entries
  | [], _, e => Except.ok e
  | s :: rest, voff, e =>
    if s.mem_size > 0 then
      match u64Add voff s.vaddr with
      | Except.error er => Except.error er
      | Except.ok a =>
        if isCanonical a && isCanonical (a + s.mem_size) &&
            isCanonical (a + s.mem_size - 1) then
          markSegmentsE rest voff { entry_state := markRangeAsUsed a s.mem_size e.entry_state }
        else Except.error "invalid virtual address"
    else markSegmentsE rest voff e

/-- An x86_64 RELA relocation entry (`xmas_elf::sections::Rela<u64>`). -/
structure Rela where
  r_offset : Nat
  r_info : Nat
  r_addend : Nat
deriving Repr, DecidableEq

/-- `Inner::read_relocation` (`initium/src/kernel.rs`, lines
428-439): read the 24-byte entry `idx` of the relocation table at
file-virtual `relTable` through the kernel page table. -/
def readRelocation (m : Machine) (voff : Int) (relTable idx : Nat) :
    Except String Rela :=
  match u64Add voff (relTable + 24 * idx) with
  | Except.error e => Except.error e
  | Except.ok addr =>
    if isCanonical addr then
      match readBytes m addr 24 with
      | none => Except.error "address is not mapped to the kernel memory space"
      | some bs =>
        Except.ok
          { r_offset := leDecode (bs.take 8)
            r_info := leDecode ((bs.drop 8).take 8)
            r_addend := leDecode ((bs.drop 16).take 8) }
    else Except.error "relocation table is outside the address space"

/-- `Inner::apply_relocation` (`initium/src/kernel.rs`, lines
441-469): only symbol-free `R_X86_64_RELATIVE` (type 8) entries are
supported; verify the offset lies in a LOAD segment and write the
64-bit little-endian value `voff + addend` to `voff + offset` via
`copy_to`.  The sequencing of the source's `?` operator and panics is
the error-propagating `Except.bind`. -/
def applyRelocation (m : Machine) (voff : Int) (elf : ElfFile) (r : Rela) :
    Except String Machine :=
  if r.r_info / 2 ^ 32 ≠ 0 then
    Except.error "relocations using the symbol table are not supported"
  else if r.r_info % 2 ^ 32 = 8 then
    Except.bind (checkIsInLoad elf r.r_offset) (fun _ =>
      Except.bind (vAddr voff r.r_offset) (fun addr =>
        Except.bind (u64Add voff r.r_addend) (fun value =>
          copyTo m addr (leBytes 8 value))))
  else Except.error "relocation type not supported"

/-- The `for idx in 0..num_entries` loop of
`handle_dynamic_segment`. -/
def applyRelocationsLoop (voff : Int) (elf : ElfFile) (relTable : Nat) :
    Machine → Nat → Nat → Except String Machine
  | m, _, 0 => Except.ok m
  | m, idx, k + 1 =>
    match readRelocation m voff relTable idx with
    | Except.error e => Except.error e
    | Except.ok r =>
      match applyRelocation m voff elf r with
      | Except.error e => Except.error e
      | Except.ok m2 => applyRelocationsLoop voff elf relTable m2 (idx + 1) k

/-- The tag scan of `handle_dynamic_segment`: collect `DT_RELA` (7),
`DT_RELASZ` (8), `DT_RELAENT` (9), rejecting duplicates. -/
def scanDynamic : List (Nat × Nat) → Option Nat → Option Nat → Option Nat →
    Except String (Option Nat × Option Nat × Option Nat)
  | [], r, s, e => Except.ok (r, s, e)
  | (tag, val) :: rest, r, s, e =>
    if tag = 7 then
      match r with
      | some _ => Except.error "Dynamic section contains more than one Rela entry"
      | none => scanDynamic rest (some val) s e
    else if tag = 8 then
      match s with
      | some _ => Except.error "Dynamic section contains more than one RelaSize entry"
      | none => scanDynamic rest r (some val) e
    else if tag = 9 then
      match e with
      | some _ => Except.error "Dynamic section contains more than one RelaEnt entry"
      | none => scanDynamic rest r s (some val)
    else scanDynamic rest r s e

/-- `Option::ok_or` followed by `?`. -/
def okOr {α : Type} (o : Option α) (e : String) : Except String α :=
  match o with
  | some a => Except.ok a
  | none => Except.error e

/-- `Inner::handle_dynamic_segment` (`initium/src/kernel.rs`, lines
358-426).  The `ok_or(..)?` chains of the source are `okOr` under
`Except.bind`. -/
def handleDynamicSegment (m : Machine) (voff : Int) (elf : ElfFile) (seg : Phdr) :
    Except String Machine :=
  Except.bind (scanDynamic seg.dynEntries none none none) (fun t =>
    match t.1 with
    | none =>
      if t.2.1.isSome || t.2.2.isSome then
        Except.error "Rela entry is missing but RelaSize or RelaEnt have been provided"
      else Except.ok m
    | some offset =>
      Except.bind (okOr t.2.1 "RelaSize entry is missing") (fun totalSize =>
        Except.bind (okOr t.2.2 "RelaEnt entry is missing") (fun entSize =>
          if entSize ≠ 24 then Except.error "unsupported entry size"
          else applyRelocationsLoop voff elf offset m 0 (totalSize / 24))))

/-- The page walk of `handle_relro_segment`: clear WRITABLE on every
mapped page of the range (panic when a page is unmapped). -/
def relroLoop : Machine → Nat → Nat → Except String Machine
  | m, _, 0 => Except.ok m
  | m, p, k + 1 =>
    match m.pageTable p with
    | none => Except.error "has the elf file not been mapped correctly?"
    | some (_, fl) =>
      if fl.writable then
        match updateFlags m p { fl with writable := false } with
        | Except.error e => Except.error e
        | Except.ok m2 => relroLoop m2 (p + 1) k
      else relroLoop m (p + 1) k

/-- `Inner::handle_relro_segment` (`initium/src/kernel.rs`, lines
471-501). -/
def handleRelroSegment (m : Machine) (voff : Int) (seg : Phdr) :
    Except String Machine :=
  match u64Add voff seg.vaddr with
  | Except.error e => Except.error e
  | Except.ok start =>
    let stop := start + seg.mem_size
    if isCanonical start && isCanonical stop then
      relroLoop m (start / pageSize) ((stop - 1) / pageSize + 1 - start / pageSize)
    else Except.error "invalid virtual address"

/-- The page walk of `remove_copied_flags`: clear the COPIED marker
on every mapped page of the range. -/
def removeCopiedLoop : Machine → Nat → Nat → Except String Machine
  | m, _, 0 => Except.ok m
  | m, p, k + 1 =>
    match m.pageTable p with
    | none => Except.error "has the elf file not been mapped correctly?"
    | some (_, fl) =>
      if fl.copied then
        match updateFlags m p { fl with copied := false } with
        | Except.error e => Except.error e
        | Except.ok m2 => removeCopiedLoop m2 (p + 1) k
      else removeCopiedLoop m (p + 1) k

/-- `Inner::remove_copied_flags` (`initium/src/kernel.rs`, lines
313-348): walk every LOAD segment's page range and scrub the
internal COPIED marker. -/
def removeCopiedFlags : Machine → Int → List Phdr → Except String Machine
  | m, _, [] => Except.ok m
  | m, voff, s :: rest =>
    if s.ptype = SegmentType.load then
      match u64Add voff s.vaddr with
      | Except.error e => Except.error e
      | Except.ok start =>
        let stop := start + s.mem_size
        if isCanonical start && isCanonical stop then
          match removeCopiedLoop m (start / pageSize)
              ((stop - 1) / pageSize + 1 - start / pageSize) with
          | Except.error e => Except.error e
          | Except.ok m2 => removeCopiedFlags m2 voff rest
        else Except.error "invalid virtual address"
    else removeCopiedFlags m voff rest

end Initium

namespace Initium

/-- `Iterator::max()` with `unwrap_or(d)`. -/
def listMaxD (d : Nat) : List Nat → Nat
  | [] => d
  | x :: xs => xs.foldl max x

/-- `Iterator::min()` with `unwrap_or(d)`. -/
def listMinD (d : Nat) : List Nat → Nat
  | [] => d
  | x :: xs => xs.foldl min x

/-- `Loader::new` (`initium/src/kernel.rs`, lines 509-569): reject a
kernel slice that is not 4 KiB-aligned *before anything else*; then
determine the virtual address offset (0 for executables; a fresh
tracker range covering the LOAD span for shared objects; fatal for
any other ELF type) and mark all segments in the tracker.  The
`xmas_elf` program/header sanity checks validate the raw bytes the
parsed view was built from and are modelled as passing.  Returns
(kernel offset, virtual address offset, updated tracker). -/
def loaderNew (kernel : Kernel) (e : Entries) : Except String (Nat × Int × Entries) :=
  if kernel.start_address % pageSize ≠ 0 then
    Except.error "Loaded kernel ELF file is not sufficiently aligned"
  else
    match kernel.elf.etype with
    | ElfType.executable =>
      Except.bind (markSegmentsE kernel.elf.segments 0 e) (fun e2 =>
        Except.ok (kernel.start_address, 0, e2))
    | ElfType.sharedObject =>
      let loads := kernel.elf.segments.filter (fun h => h.ptype = SegmentType.load)
      let maxAddr := listMaxD 0 (loads.map (fun h => h.vaddr + h.mem_size))
      let minAddr := listMinD 0 (loads.map (fun h => h.vaddr))
      let size := maxAddr - minAddr
      let algn := listMaxD 1 (loads.map (fun h => h.align))
      match getFreeAddress size algn e with
      | none => Except.error "no usable level 4 entries found"
      | some r =>
        let voff : Int := (r.1 : Int) - (minAddr : Int)
        Except.bind (markSegmentsE kernel.elf.segments voff r.2) (fun e3 =>
          Except.ok (kernel.start_address, voff, e3))
    | ElfType.otherElf => Except.error "unimplemented ELF type"

/-- The first pass of `Loader::load_segments`: LOAD segments (with
BSS) and the at-most-one TLS segment. -/
def loadPass1 (kOff : Nat) (voff : Int) :
    Machine → List Phdr → Option TlsTemplate →
    Except String (Machine × Option TlsTemplate)
  | m, [], tls => Except.ok (m, tls)
  | m, s :: rest, tls =>
    if s.ptype = SegmentType.load then
      Except.bind (handleLoadSegment m kOff voff s) (fun m2 =>
        loadPass1 kOff voff m2 rest tls)
    else if s.ptype = SegmentType.tls then
      match tls with
      | some _ => Except.error "multiple TLS segments not supported"
      | none =>
        Except.bind (handleTlsSegment voff s) (fun t =>
          loadPass1 kOff voff m rest (some t))
    else loadPass1 kOff voff m rest tls

/-- The second pass of `Loader::load_segments`: DYNAMIC segments. -/
def loadPass2 (voff : Int) (elf : ElfFile) :
    Machine → List Phdr → Except String Machine
  | m, [] => Except.ok m
  | m, s :: rest =>
    if s.ptype = SegmentType.dynamic then
      match handleDynamicSegment m voff elf s with
      | Except.error e => Except.error e
      | Except.ok m2 => loadPass2 voff elf m2 rest
    else loadPass2 voff elf m rest

/-- The third pass of `Loader::load_segments`: RELRO segments. -/
def loadPass3 (voff : Int) :
    Machine → List Phdr → Except String Machine
  | m, [] => Except.ok m
  | m, s :: rest =>
    if s.ptype = SegmentType.gnuRelro then
      match handleRelroSegment m voff s with
      | Except.error e => Except.error e
      | Except.ok m2 => loadPass3 voff m2 rest
    else loadPass3 voff m rest

/-- `load_kernel` (`initium/src/kernel.rs`, lines 618-628):
`Loader::new`, the three segment passes, the COPIED-flag cleanup,
and finally the translated entry point. -/
def loadKernel (kernel : Kernel) (m : Machine) (e : Entries) :
    Except String (Nat × Option TlsTemplate × Machine × Entries) :=
  Except.bind (loaderNew kernel e) (fun ke =>
    Except.bind (loadPass1 ke.1 ke.2.1 m kernel.elf.segments none) (fun mt =>
      Except.bind (loadPass2 ke.2.1 kernel.elf mt.1 kernel.elf.segments) (fun m3 =>
        Except.bind (loadPass3 ke.2.1 m3 kernel.elf.segments) (fun m4 =>
          Except.bind (removeCopiedFlags m4 ke.2.1 kernel.elf.segments) (fun m5 =>
            Except.bind (vAddr ke.2.1 kernel.elf.entry_point) (fun ep =>
              Except.ok (ep, mt.2, m5, ke.2.2)))))))

end Initium

namespace Initium

/-- C9: for every kernel byte slice whose start address is not
4 KiB-aligned, `load_kernel` fails with the string
"Loaded kernel ELF file is not sufficiently aligned"; the check is
the first thing `Loader::new` does, before any segment is mapped, any
frame is allocated, or the entry tracker is touched. -/
theorem load_kernel_rejects_unaligned (kernel : Kernel) (m : Machine) (e : Entries)
    (h : kernel.start_address % pageSize ≠ 0) :
    loadKernel kernel m e =
      Except.error "Loaded kernel ELF file is not sufficiently aligned" := by
  unfold loadKernel loaderNew
  rw [if_pos h]
  rfl

/-- Witness for C9: a kernel slice at the odd address 0x1001 is
rejected. -/
theorem load_kernel_rejects_unaligned_witness :
    loadKernel
        { elf := { etype := ElfType.executable, entry_point := 0, segments := [] }
          start_address := 0x1001
          len := 0x1000 }
        { physMem := fun _ => 0, pageTable := fun _ => none, alloc := AllocState.new [] }
        Entries.new =
      Except.error "Loaded kernel ELF file is not sufficiently aligned" :=
  load_kernel_rejects_unaligned
    { elf := { etype := ElfType.executable, entry_point := 0, segments := [] }
      start_address := 0x1001
      len := 0x1000 }
    { physMem := fun _ => 0, pageTable := fun _ => none, alloc := AllocState.new [] }
    Entries.new (by decide)

end Initium

namespace Initium

/-- Frame `f` lies within descriptor `d`'s frame range. -/
def descFrames (d : Descriptor) (f : Nat) : Prop :=
  d.start / pageSize ≤ f ∧ f ≤ (d.start + d.len - 1) / pageSize

/-- Frame `f` can never again be returned by the allocator: it is
below the monotone cursor, or outside every descriptor the allocator
can still visit. -/
def neverAllocated (s : AllocState) (f : Nat) : Prop :=
  f < s.nextFrame ∨
    ((∀ d, s.currentDescriptor = some d → ¬ descFrames d f) ∧
      (∀ d ∈ s.memoryMap, ¬ descFrames d f))

/-- Machine well-formedness for the loader proofs: every mapped frame
is out of the allocator's reach (so fresh frames never alias mapped
ones), and distinct pages map distinct frames. -/
def wfM (m : Machine) : Prop :=
  (∀ p f fl, m.pageTable p = some (f, fl) → neverAllocated m.alloc f) ∧
  (∀ p q fp flp fq flq, m.pageTable p = some (fp, flp) → m.pageTable q = some (fq, flq) →
    fp = fq → p = q)

theorem allocateFrameFromDescriptor_spec (nf : Nat) (d : Descriptor) :
    (∀ f nf2, allocateFrameFromDescriptor nf d = (some f, nf2) →
      nf ≤ f ∧ nf2 = f + 1 ∧ descFrames d f) ∧
    (∀ nf2, allocateFrameFromDescriptor nf d = (none, nf2) → nf ≤ nf2) := by
  constructor
  · intro f nf2 h
    unfold descFrames
    simp only [allocateFrameFromDescriptor] at h
    split_ifs at h with h1 h2 h3
    all_goals
      first
        | (injection h with ha hb
           injection ha with ha
           subst ha
           subst hb
           exact ⟨by omega, by omega, by omega, by omega⟩)
        | (injection h with ha hb
           exact absurd ha (by simp))
  · intro nf2 h
    simp only [allocateFrameFromDescriptor] at h
    split_ifs at h with h1 h2 h3
    all_goals
      first
        | (injection h with ha hb
           subst hb
           omega)

theorem allocateLoop_spec : ∀ (ds : List Descriptor) (nf : Nat),
    nf ≤ (allocateLoop ds nf).2.2.2 ∧
    (∀ d, (allocateLoop ds nf).2.1 = some d → d ∈ ds) ∧
    (∀ d ∈ (allocateLoop ds nf).2.2.1, d ∈ ds) ∧
    (∀ f, (allocateLoop ds nf).1 = some f →
      nf ≤ f ∧ (allocateLoop ds nf).2.2.2 = f + 1 ∧ ∃ d ∈ ds, descFrames d f) := by
  intro ds
  induction ds with
  | nil =>
    intro nf
    simp [allocateLoop]
  | cons d rest ih =>
    intro nf
    unfold allocateLoop
    split_ifs with hknd
    · obtain ⟨i1, i2, i3, i4⟩ := ih nf
      refine ⟨i1, ?_, ?_, ?_⟩
      · intro x hx
        exact List.mem_cons_of_mem _ (i2 x hx)
      · intro x hx
        exact List.mem_cons_of_mem _ (i3 x hx)
      · intro f hf
        obtain ⟨j1, j2, j3⟩ := i4 f hf
        obtain ⟨x, hx1, hx2⟩ := j3
        exact ⟨j1, j2, x, List.mem_cons_of_mem _ hx1, hx2⟩
    · have hspec := allocateFrameFromDescriptor_spec nf d
      cases hr : allocateFrameFromDescriptor nf d with
      | mk r nf2 =>
        cases r with
        | some f =>
          obtain ⟨h1, h2, h3⟩ := hspec.1 f nf2 hr
          dsimp only
          refine ⟨by omega, ?_, ?_, ?_⟩
          · intro x hx
            injection hx with hx
            subst hx
            exact List.mem_cons_self d rest
          · intro x hx
            exact List.mem_cons_of_mem _ hx
          · intro g hg
            injection hg with hg
            subst hg
            exact ⟨h1, h2, d, List.mem_cons_self d rest, h3⟩
        | none =>
          have h1 := hspec.2 nf2 hr
          dsimp only
          obtain ⟨i1, i2, i3, i4⟩ := ih nf2
          refine ⟨by omega, ?_, ?_, ?_⟩
          · intro x hx
            exact List.mem_cons_of_mem _ (i2 x hx)
          · intro x hx
            exact List.mem_cons_of_mem _ (i3 x hx)
          · intro f hf
            obtain ⟨j1, j2, j3⟩ := i4 f hf
            obtain ⟨x, hx1, hx2⟩ := j3
            exact ⟨by omega, j2, x, List.mem_cons_of_mem _ hx1, hx2⟩

theorem allocateFrame_spec (s : AllocState) :
    s.nextFrame ≤ (allocateFrame s).2.nextFrame ∧
    (∀ f, (allocateFrame s).1 = some f →
      s.nextFrame ≤ f ∧ (allocateFrame s).2.nextFrame = f + 1 ∧
        ((∃ d, s.currentDescriptor = some d ∧ descFrames d f) ∨
          ∃ d ∈ s.memoryMap, descFrames d f)) ∧
    (∀ g, neverAllocated s g → neverAllocated (allocateFrame s).2 g) := by
  cases hcd : s.currentDescriptor with
  | none =>
    simp only [allocateFrame, hcd]
    obtain ⟨i1, i2, i3, i4⟩ := allocateLoop_spec s.memoryMap s.nextFrame
    refine ⟨i1, ?_, ?_⟩
    · intro f hf
      obtain ⟨j1, j2, j3⟩ := i4 f hf
      exact ⟨j1, j2, Or.inr j3⟩
    · intro g hg
      unfold neverAllocated at hg ⊢
      dsimp only
      rcases hg with hg | ⟨hg1, hg2⟩
      · exact Or.inl (by omega)
      · refine Or.inr ⟨?_, ?_⟩
        · intro d hd
          exact hg2 d (i2 d hd)
        · intro d hd
          exact hg2 d (i3 d hd)
  | some d =>
    have hspec := allocateFrameFromDescriptor_spec s.nextFrame d
    cases hr : allocateFrameFromDescriptor s.nextFrame d with
    | mk r nf2 =>
      cases r with
      | some f =>
        obtain ⟨h1, h2, h3⟩ := hspec.1 f nf2 hr
        simp only [allocateFrame, hcd, hr]
        refine ⟨by omega, ?_, ?_⟩
        · intro g hg
          injection hg with hg
          subst hg
          exact ⟨h1, h2, Or.inl ⟨d, rfl, h3⟩⟩
        · intro g hg
          unfold neverAllocated at hg ⊢
          dsimp only
          rcases hg with hg | ⟨hg1, hg2⟩
          · exact Or.inl (by omega)
          · refine Or.inr ⟨?_, hg2⟩
            intro x hx
            injection hx with hx
            subst hx
            exact hg1 d hcd
      | none =>
        have h1 := hspec.2 nf2 hr
        simp only [allocateFrame, hcd, hr]
        obtain ⟨i1, i2, i3, i4⟩ := allocateLoop_spec s.memoryMap nf2
        refine ⟨by omega, ?_, ?_⟩
        · intro f hf
          obtain ⟨j1, j2, j3⟩ := i4 f hf
          exact ⟨by omega, j2, Or.inr j3⟩
        · intro g hg
          unfold neverAllocated at hg ⊢
          dsimp only
          rcases hg with hg | ⟨hg1, hg2⟩
          · exact Or.inl (by omega)
          · refine Or.inr ⟨?_, ?_⟩
            · intro x hx
              exact hg2 x (i2 x hx)
            · intro x hx
              exact hg2 x (i3 x hx)

theorem allocateFrame_fresh (s : AllocState) (f : Nat) (h : (allocateFrame s).1 = some f)
    (g : Nat) (hg : neverAllocated s g) : g ≠ f := by
  obtain ⟨h1, h2, h3⟩ := (allocateFrame_spec s).2.1 f h
  unfold neverAllocated at hg
  rcases hg with hg | ⟨hg1, hg2⟩
  · omega
  · rcases h3 with ⟨d, hd1, hd2⟩ | ⟨d, hd1, hd2⟩
    · intro he
      subst he
      exact hg1 d hd1 hd2
    · intro he
      subst he
      exact hg2 d hd1 hd2

end Initium

namespace Initium

theorem makeMut_spec (m : Machine) (p f : Nat) (fl : Flags)
    (hpt : m.pageTable p = some (f, fl)) (hwf : wfM m)
    (nf : Nat) (m2 : Machine) (h : makeMut m p = Except.ok (nf, m2)) :
    (∃ fl2, m2.pageTable p = some (nf, fl2)) ∧
    (∀ q, q ≠ p → m2.pageTable q = m.pageTable q) ∧
    (∀ off, off < pageSize → m2.physMem (nf * pageSize + off) = m.physMem (f * pageSize + off)) ∧
    (∀ g, (∃ q flq, q ≠ p ∧ m.pageTable q = some (g, flq)) →
      ∀ off, off < pageSize → m2.physMem (g * pageSize + off) = m.physMem (g * pageSize + off)) ∧
    wfM m2 ∧ m.alloc.nextFrame ≤ m2.alloc.nextFrame := by
  simp only [makeMut, hpt] at h
  split_ifs at h with hcop
  · injection h with h
    injection h with h1 h2
    subst h1
    subst h2
    exact ⟨⟨fl, hpt⟩, fun q _ => rfl, fun off _ => rfl, fun g _ off _ => rfl, hwf, le_rfl⟩
  · cases halloc : allocateFrame m.alloc with
    | mk r alloc2 =>
      rw [halloc] at h
      cases r with
      | none => exact absurd h (by simp)
      | some nfr =>
        simp only at h
        injection h with h
        injection h with h1 h2
        subst h1
        subst h2
        have hfst : (allocateFrame m.alloc).1 = some nfr := by rw [halloc]
        have hsnd : (allocateFrame m.alloc).2 = alloc2 := by rw [halloc]
        have hspec := allocateFrame_spec m.alloc
        have hnext : alloc2.nextFrame = nfr + 1 := by
          have := (hspec.2.1 nfr hfst).2.1
          rw [hsnd] at this
          exact this
        refine ⟨⟨{ fl with copied := true }, by simp⟩, ?_, ?_, ?_, ?_, ?_⟩
        · intro q hq
          simp only [if_neg hq]
        · intro off hoff
          simp only
          rw [if_pos (by simp only [pageSize] at hoff ⊢; omega)]
          have harith : nfr * pageSize + off - nfr * pageSize = off := by omega
          rw [harith]
        · rintro g ⟨q, flq, hqp, hq⟩ off hoff
          simp only
          have hgnf : g ≠ nfr := allocateFrame_fresh m.alloc nfr hfst g (hwf.1 q g flq hq)
          rw [if_neg (by simp only [pageSize] at hoff ⊢; omega)]
        · constructor
          · intro q g flg hq
            simp only at hq
            by_cases hqp : q = p
            · rw [if_pos hqp] at hq
              injection hq with hq
              injection hq with hq1 hq2
              subst hq1
              simp only
              unfold neverAllocated
              left
              omega
            · rw [if_neg hqp] at hq
              have := hwf.1 q g flg hq
              have hpres := hspec.2.2 g this
              rw [hsnd] at hpres
              exact hpres
          · intro q1 q2 fp flp fq flq h1 h2 hfe
            simp only at h1 h2
            by_cases hq1 : q1 = p <;> by_cases hq2 : q2 = p
            · rw [hq1, hq2]
            · rw [if_pos hq1] at h1
              rw [if_neg hq2] at h2
              injection h1 with h1
              injection h1 with h1a h1b
              subst h1a
              have : fq ≠ nfr := allocateFrame_fresh m.alloc nfr hfst fq (hwf.1 q2 fq flq h2)
              exact absurd hfe.symm this
            · rw [if_neg hq1] at h1
              rw [if_pos hq2] at h2
              injection h2 with h2
              injection h2 with h2a h2b
              subst h2a
              have : fp ≠ nfr := allocateFrame_fresh m.alloc nfr hfst fp (hwf.1 q1 fp flp h1)
              exact absurd hfe this
            · rw [if_neg hq1] at h1
              rw [if_neg hq2] at h2
              exact hwf.2 q1 q2 fp flp fq flq h1 h2 hfe
        · simp only
          have hmono := hspec.1
          rw [hsnd] at hmono
          omega

end Initium

namespace Initium

theorem getD_take_nat (l : List Nat) (num i : Nat) (h : i < num) :
    (l.take num).getD i 0 = l.getD i 0 := by
  induction l generalizing num i with
  | nil => simp
  | cons b t ih =>
    cases num with
    | zero => omega
    | succ n =>
      cases i with
      | zero => rfl
      | succ j =>
        rw [List.take_succ_cons, List.getD_cons_succ, List.getD_cons_succ]
        exact ih n j (by omega)

theorem getD_drop_nat (l : List Nat) (n i : Nat) :
    (l.drop n).getD i 0 = l.getD (n + i) 0 := by
  induction l generalizing n with
  | nil => simp
  | cons b t ih =>
    cases n with
    | zero => rw [List.drop_zero, Nat.zero_add]
    | succ k =>
      rw [List.drop_succ_cons]
      rw [ih k]
      rw [Nat.succ_add, List.getD_cons_succ]

theorem copyToPage_spec (m : Machine) (addr : Nat) (buf : List Nat) (p : Nat)
    (hwf : wfM m) (f : Nat) (fl : Flags) (hpt : m.pageTable p = some (f, fl))
    (m2 : Machine) (h : copyToPage m addr buf p = Except.ok m2) :
    wfM m2 ∧
    (∃ nf fl2, m2.pageTable p = some (nf, fl2)) ∧
    (∀ q, q ≠ p → m2.pageTable q = m.pageTable q) ∧
    (∀ a, a / pageSize = p → addr ≤ a → a < addr + buf.length →
      readByte m2 a = some (buf.getD (a - addr) 0)) ∧
    (∀ a g flg, a / pageSize ≠ p → m.pageTable (a / pageSize) = some (g, flg) →
      readByte m2 a = readByte m a) ∧
    m.alloc.nextFrame ≤ m2.alloc.nextFrame := by
  unfold copyToPage at h
  cases hmm : makeMut m p with
  | error e => rw [hmm] at h; exact absurd h (by simp)
  | ok r =>
    obtain ⟨nf, m1⟩ := r
    rw [hmm] at h
    simp only at h
    injection h with h
    obtain ⟨⟨fl2, hp1⟩, hq1, hcontent, hothers, hwf1, hmono⟩ :=
      makeMut_spec m p f fl hpt hwf nf m1 hmm
    subst h
    have hpagele : p * pageSize ≤ max addr (p * pageSize) := le_max_right _ _
    refine ⟨?_, ⟨nf, fl2, hp1⟩, hq1, ?_, ?_, hmono⟩
    · exact hwf1
    · -- bytes written to page p
      intro a hap haddr halen
      have hbounds : p * pageSize ≤ a ∧ a < p * pageSize + pageSize := by
        simp only [pageSize] at hap ⊢
        omega
      unfold readByte
      simp only [hap, hp1]
      congr 1
      set pageStart := p * pageSize with hps
      set startCopy := max addr pageStart with hsc
      set endInclCopy := min (addr + buf.length - 1) (pageStart + (pageSize - 1)) with hec
      have hsc2 : startCopy ≤ a := by
        simp only [hsc, hps, pageSize] at *
        omega
      have hec2 : a ≤ endInclCopy := by
        simp only [hec, hps, pageSize] at *
        omega
      have hscge : addr ≤ startCopy := le_max_left _ _
      unfold writeBytesPhys
      have hlen : ((buf.drop (startCopy - addr)).take (endInclCopy + 1 - startCopy)).length
          = endInclCopy + 1 - startCopy := by
        rw [List.length_take, List.length_drop]
        simp only [hec, hsc, hps, pageSize] at *
        omega
      rw [if_pos ?side]
      case side =>
        rw [hlen]
        simp only [hsc, hec, hps, pageSize] at *
        omega
      have hidx : nf * pageSize + a % pageSize - (nf * pageSize + (startCopy - pageStart))
          = a - startCopy := by
        simp only [hsc, hps, pageSize] at *
        omega
      rw [hidx]
      rw [getD_take_nat _ _ _ (by simp only [hec, hsc, hps, pageSize] at *; omega)]
      rw [getD_drop_nat]
      congr 1
      simp only [hsc, hps, pageSize] at *
      omega
    · -- bytes on other mapped pages unchanged
      intro a g flg hap hmap
      unfold readByte
      rw [hq1 _ hap, hmap]
      have hgnf : g ≠ nf := by
        intro he
        subst he
        have hq1a : m1.pageTable (a / pageSize) = some (g, flg) := by
          rw [hq1 _ hap]
          exact hmap
        exact hap (hwf1.2 _ _ _ _ _ _ hq1a hp1 rfl)
      simp only [writeBytesPhys]
      rw [if_neg ?notin]
      case notin =>
        have hsl : ((buf.drop (max addr (p * pageSize) - addr)).take
            (min (addr + buf.length - 1) (p * pageSize + (pageSize - 1)) + 1 -
              max addr (p * pageSize))).length ≤
            min (addr + buf.length - 1) (p * pageSize + (pageSize - 1)) + 1 -
              max addr (p * pageSize) := by
          rw [List.length_take]
          exact min_le_left _ _
        simp only [pageSize] at *
        omega
      have hoth := hothers g ⟨a / pageSize, flg, hap, hmap⟩ (a % pageSize)
        (by simp only [pageSize]; omega)
      rw [hoth]

end Initium

namespace Initium

theorem copyToLoop_spec : ∀ (k : Nat) (m : Machine) (addr : Nat) (buf : List Nat) (p0 : Nat),
    wfM m →
    (∀ q, p0 ≤ q → q < p0 + k → (m.pageTable q).isSome) →
    ∀ m2, copyToLoop addr buf m p0 k = Except.ok m2 →
    wfM m2 ∧
    (∀ q, q < p0 ∨ p0 + k ≤ q → m2.pageTable q = m.pageTable q) ∧
    (∀ a, addr ≤ a → a < addr + buf.length → p0 ≤ a / pageSize → a / pageSize < p0 + k →
      readByte m2 a = some (buf.getD (a - addr) 0)) ∧
    (∀ a g flg, (a / pageSize < p0 ∨ p0 + k ≤ a / pageSize) →
      m.pageTable (a / pageSize) = some (g, flg) → readByte m2 a = readByte m a) ∧
    m.alloc.nextFrame ≤ m2.alloc.nextFrame := by
  intro k
  induction k with
  | zero =>
    intro m addr buf p0 hwf hmapped m2 h
    unfold copyToLoop at h
    injection h with h
    subst h
    refine ⟨hwf, fun q _ => rfl, ?_, fun a g flg _ _ => rfl, le_rfl⟩
    intro a _ _ h1 h2
    omega
  | succ k ih =>
    intro m addr buf p0 hwf hmapped m2 h
    unfold copyToLoop at h
    cases hcp : copyToPage m addr buf p0 with
    | error e => rw [hcp] at h; exact absurd h (by simp)
    | ok m1 =>
      rw [hcp] at h
      have hp0some := hmapped p0 le_rfl (by omega)
      cases hpt : m.pageTable p0 with
      | none => rw [hpt] at hp0some; exact absurd hp0some (by simp)
      | some r =>
        obtain ⟨f, fl⟩ := r
        obtain ⟨hwf1, ⟨nf, fl2, hp1⟩, hq1, hwrit, hoth, hmono1⟩ :=
          copyToPage_spec m addr buf p0 hwf f fl hpt m1 hcp
        have ihm : ∀ q, p0 + 1 ≤ q → q < p0 + 1 + k → (m1.pageTable q).isSome := by
          intro q h1 h2
          rw [hq1 q (by omega)]
          exact hmapped q (by omega) (by omega)
        obtain ⟨ihwf, ihpt, ihwrit, ihoth, ihmono⟩ := ih m1 addr buf (p0 + 1) hwf1 ihm m2 h
        refine ⟨ihwf, ?_, ?_, ?_, le_trans hmono1 ihmono⟩
        · intro q hq
          rw [ihpt q (by omega), hq1 q (by omega)]
        · intro a ha1 ha2 ha3 ha4
          by_cases hap : a / pageSize = p0
          · have hm1 : readByte m1 a = some (buf.getD (a - addr) 0) := hwrit a hap ha1 ha2
            have : readByte m2 a = readByte m1 a := by
              refine ihoth a nf fl2 (by omega) ?_
              rw [hap]
              exact hp1
            rw [this, hm1]
          · exact ihwrit a ha1 ha2 (by omega) (by omega)
        · intro a g flg hout hmap
          have h1 : readByte m1 a = readByte m a := hoth a g flg (by omega) hmap
          have h2 : readByte m2 a = readByte m1 a := by
            refine ihoth a g flg (by omega) ?_
            rw [hq1 _ (by omega)]
            exact hmap
          rw [h2, h1]

theorem leBytes_length : ∀ (n v : Nat), (leBytes n v).length = n := by
  intro n
  induction n with
  | zero => intro v; rfl
  | succ k ih =>
    intro v
    unfold leBytes
    rw [List.length_cons, ih]

theorem copyTo_spec (m : Machine) (addr : Nat) (buf : List Nat)
    (hwf : wfM m) (hbuf : 0 < buf.length)
    (hmapped : ∀ q, addr / pageSize ≤ q → q ≤ (addr + buf.length - 1) / pageSize →
      (m.pageTable q).isSome)
    (m2 : Machine) (h : copyTo m addr buf = Except.ok m2) :
    wfM m2 ∧
    (∀ i, i < buf.length → readByte m2 (addr + i) = some (buf.getD i 0)) := by
  unfold copyTo at h
  rw [if_neg (by omega)] at h
  have hcover : ∀ q, addr / pageSize ≤ q →
      q < addr / pageSize + ((addr + buf.length - 1) / pageSize + 1 - addr / pageSize) →
      (m.pageTable q).isSome := by
    intro q h1 h2
    have hd : addr / pageSize ≤ (addr + buf.length - 1) / pageSize :=
      Nat.div_le_div_right (by omega)
    exact hmapped q h1 (by omega)
  obtain ⟨hwf2, hpt2, hwrit, _, _⟩ :=
    copyToLoop_spec _ m addr buf (addr / pageSize) hwf hcover m2 h
  refine ⟨hwf2, ?_⟩
  intro i hi
  have hd1 : addr / pageSize ≤ (addr + i) / pageSize := Nat.div_le_div_right (by omega)
  have hd2 : (addr + i) / pageSize ≤ (addr + buf.length - 1) / pageSize :=
    Nat.div_le_div_right (by omega)
  have hd0 : addr / pageSize ≤ (addr + buf.length - 1) / pageSize :=
    Nat.div_le_div_right (by omega)
  have hw := hwrit (addr + i) (by omega) (by omega) hd1 (by omega)
  rw [show addr + i - addr = i from by omega] at hw
  exact hw

theorem readBytes_of_bytes (m : Machine) : ∀ (n a : Nat) (bs : List Nat),
    bs.length = n → (∀ i, i < n → readByte m (a + i) = some (bs.getD i 0)) →
    readBytes m a n = some bs := by
  intro n
  induction n with
  | zero =>
    intro a bs hlen _
    cases bs with
    | nil => rfl
    | cons b t => simp at hlen
  | succ k ih =>
    intro a bs hlen hb
    cases bs with
    | nil => simp at hlen
    | cons b t =>
      unfold readBytes
      have h0 := hb 0 (by omega)
      rw [Nat.add_zero] at h0
      rw [List.getD_cons_zero] at h0
      rw [h0]
      have ht : readBytes m (a + 1) k = some t := by
        refine ih (a + 1) t (by simpa using hlen) ?_
        intro i hi
        have hbi := hb (i + 1) (by omega)
        rw [show a + (i + 1) = a + 1 + i by omega] at hbi
        rw [List.getD_cons_succ] at hbi
        exact hbi
      rw [ht]

end Initium

namespace Initium

theorem updateFlags_readByte (m : Machine) (p : Nat) (fl : Flags) (m2 : Machine)
    (h : updateFlags m p fl = Except.ok m2) (a : Nat) :
    readByte m2 a = readByte m a := by
  unfold updateFlags at h
  cases hpt : m.pageTable p with
  | none => rw [hpt] at h; exact absurd h (by simp)
  | some r =>
    obtain ⟨f, fl0⟩ := r
    rw [hpt] at h
    simp only at h
    injection h with h
    subst h
    unfold readByte
    simp only
    by_cases hap : a / pageSize = p
    · rw [if_pos hap, hap, hpt]
    · rw [if_neg hap]

theorem relroLoop_readByte : ∀ (k : Nat) (m : Machine) (p : Nat) (m2 : Machine),
    relroLoop m p k = Except.ok m2 → ∀ a, readByte m2 a = readByte m a := by
  intro k
  induction k with
  | zero =>
    intro m p m2 h a
    unfold relroLoop at h
    injection h with h
    subst h
    rfl
  | succ n ih =>
    intro m p m2 h a
    unfold relroLoop at h
    cases hpt : m.pageTable p with
    | none => rw [hpt] at h; exact absurd h (by simp)
    | some r =>
      obtain ⟨f, fl⟩ := r
      rw [hpt] at h
      simp only at h
      split_ifs at h with hw
      · cases hu : updateFlags m p { fl with writable := false } with
        | error e => rw [hu] at h; exact absurd h (by simp)
        | ok mu =>
          rw [hu] at h
          rw [ih mu (p + 1) m2 h a]
          exact updateFlags_readByte m p _ mu hu a
      · exact ih m (p + 1) m2 h a

theorem handleRelroSegment_readByte (m : Machine) (voff : Int) (seg : Phdr) (m2 : Machine)
    (h : handleRelroSegment m voff seg = Except.ok m2) (a : Nat) :
    readByte m2 a = readByte m a := by
  unfold handleRelroSegment at h
  cases hu : u64Add voff seg.vaddr with
  | error e => rw [hu] at h; exact absurd h (by simp)
  | ok start =>
    rw [hu] at h
    simp only at h
    split_ifs at h with hc
    exact relroLoop_readByte _ m _ m2 h a

theorem loadPass3_readByte : ∀ (segs : List Phdr) (voff : Int) (m m2 : Machine),
    loadPass3 voff m segs = Except.ok m2 → ∀ a, readByte m2 a = readByte m a := by
  intro segs
  induction segs with
  | nil =>
    intro voff m m2 h a
    unfold loadPass3 at h
    injection h with h
    subst h
    rfl
  | cons s rest ih =>
    intro voff m m2 h a
    unfold loadPass3 at h
    split_ifs at h with hs
    · cases hr : handleRelroSegment m voff s with
      | error e => rw [hr] at h; exact absurd h (by simp)
      | ok mr =>
        rw [hr] at h
        rw [ih voff mr m2 h a]
        exact handleRelroSegment_readByte m voff s mr hr a
    · exact ih voff m m2 h a

theorem removeCopiedLoop_readByte : ∀ (k : Nat) (m : Machine) (p : Nat) (m2 : Machine),
    removeCopiedLoop m p k = Except.ok m2 → ∀ a, readByte m2 a = readByte m a := by
  intro k
  induction k with
  | zero =>
    intro m p m2 h a
    unfold removeCopiedLoop at h
    injection h with h
    subst h
    rfl
  | succ n ih =>
    intro m p m2 h a
    unfold removeCopiedLoop at h
    cases hpt : m.pageTable p with
    | none => rw [hpt] at h; exact absurd h (by simp)
    | some r =>
      obtain ⟨f, fl⟩ := r
      rw [hpt] at h
      simp only at h
      split_ifs at h with hw
      · cases hu : updateFlags m p { fl with copied := false } with
        | error e => rw [hu] at h; exact absurd h (by simp)
        | ok mu =>
          rw [hu] at h
          rw [ih mu (p + 1) m2 h a]
          exact updateFlags_readByte m p _ mu hu a
      · exact ih m (p + 1) m2 h a

theorem removeCopiedFlags_readByte : ∀ (segs : List Phdr) (voff : Int) (m m2 : Machine),
    removeCopiedFlags m voff segs = Except.ok m2 → ∀ a, readByte m2 a = readByte m a := by
  intro segs
  induction segs with
  | nil =>
    intro voff m m2 h a
    unfold removeCopiedFlags at h
    injection h with h
    subst h
    rfl
  | cons s rest ih =>
    intro voff m m2 h a
    unfold removeCopiedFlags at h
    split_ifs at h with hs
    · cases hu : u64Add voff s.vaddr with
      | error e => rw [hu] at h; exact absurd h (by simp)
      | ok start =>
        rw [hu] at h
        simp only at h
        split_ifs at h with hc
        cases hl : removeCopiedLoop m (start / pageSize)
            ((start + s.mem_size - 1) / pageSize + 1 - start / pageSize) with
        | error e => rw [hl] at h; exact absurd h (by simp)
        | ok ml =>
          rw [hl] at h
          rw [ih voff ml m2 h a]
          exact removeCopiedLoop_readByte _ m _ ml hl a
    · exact ih voff m m2 h a

theorem readBytes_congr (m m2 : Machine) (hr : ∀ a, readByte m2 a = readByte m a) :
    ∀ (n a : Nat), readBytes m2 a n = readBytes m a n := by
  intro n
  induction n with
  | zero => intro a; rfl
  | succ k ih =>
    intro a
    unfold readBytes
    rw [hr a, ih (a + 1)]

end Initium

namespace Initium

/-- Eliminate a successful `Except.bind`: the first computation
succeeded and the continuation succeeded on its value. -/
theorem exceptBind_ok_elim {α β : Type} (x : Except String α) (f : α → Except String β)
    (b : β) (h : Except.bind x f = Except.ok b) :
    ∃ a, x = Except.ok a ∧ f a = Except.ok b := by
  cases x with
  | error e => exact absurd h (by simp [Except.bind])
  | ok a => exact ⟨a, rfl, h⟩

/-- C6: for a kernel containing a single `R_X86_64_RELATIVE`
relocation with offset `O` (inside a LOAD segment, enforced by
`check_is_in_load` inside `apply_relocation`) and addend `A`, once
`apply_relocation` has completed with chosen base offset `V`, reading
8 bytes at virtual `V + O` through the kernel page table yields the
little-endian value `V + A`; the remaining phases of `load_kernel`
(RELRO and the COPIED-flag cleanup) only change flags, so the same
bytes are still read at `load_kernel`'s completion. -/
theorem relocation_roundtrip (m : Machine) (V O A : Nat) (elf : ElfFile)
    (hwf : wfM m)
    (hmapped : ∀ q, (V + O) / pageSize ≤ q → q ≤ (V + O + 7) / pageSize →
      (m.pageTable q).isSome)
    (hcanon : V + O + 8 ≤ 2 ^ 47)
    (hvalue : V + A < 2 ^ 64)
    (m1 : Machine)
    (h : applyRelocation m (V : Int) elf { r_offset := O, r_info := 8, r_addend := A } =
      Except.ok m1) :
    readBytes m1 (V + O) 8 = some (leBytes 8 (V + A)) ∧
    (∀ relros m2, loadPass3 (V : Int) m1 relros = Except.ok m2 →
      ∀ loadsegs m3, removeCopiedFlags m2 (V : Int) loadsegs = Except.ok m3 →
        readBytes m3 (V + O) 8 = some (leBytes 8 (V + A))) := by
  have hv : vAddr (V : Int) O = Except.ok (V + O) := by
    unfold vAddr
    rw [if_pos (by push_cast; omega)]
    exact congrArg Except.ok (by omega)
  have hu : u64Add (V : Int) A = Except.ok (V + A) := by
    unfold u64Add
    rw [if_pos (by push_cast; omega)]
    exact congrArg Except.ok (by omega)
  unfold applyRelocation at h
  rw [if_neg (by norm_num), if_pos (by norm_num)] at h
  obtain ⟨u, hch, h⟩ := exceptBind_ok_elim _ _ _ h
  obtain ⟨addr, hva, h⟩ := exceptBind_ok_elim _ _ _ h
  obtain ⟨value, hvu, h⟩ := exceptBind_ok_elim _ _ _ h
  have hva2 : vAddr (V : Int) O = Except.ok addr := hva
  have hvu2 : u64Add (V : Int) A = Except.ok value := hvu
  rw [hv] at hva2
  injection hva2 with he1
  rw [hu] at hvu2
  injection hvu2 with he2
  subst he1
  subst he2
  have hlen8 : (leBytes 8 (V + A)).length = 8 := leBytes_length 8 (V + A)
  have hmap2 : ∀ q, (V + O) / pageSize ≤ q →
      q ≤ (V + O + (leBytes 8 (V + A)).length - 1) / pageSize →
      (m.pageTable q).isSome := by
    rw [hlen8]
    intro q h1 h2
    exact hmapped q h1 (by
      have : V + O + 8 - 1 = V + O + 7 := by omega
      rw [this] at h2
      exact h2)
  obtain ⟨hwf1, hbytes⟩ := copyTo_spec m (V + O) (leBytes 8 (V + A)) hwf
    (by rw [hlen8]; omega) hmap2 m1 h
  have hread : readBytes m1 (V + O) 8 = some (leBytes 8 (V + A)) := by
    refine readBytes_of_bytes m1 8 (V + O) (leBytes 8 (V + A)) hlen8 ?_
    intro i hi
    exact hbytes i (by rw [hlen8]; omega)
  refine ⟨hread, ?_⟩
  intro relros m2 h2 loadsegs m3 h3
  have e2 := loadPass3_readByte relros (V : Int) m1 m2 h2
  have e3 := removeCopiedFlags_readByte loadsegs (V : Int) m2 m3 h3
  rw [readBytes_congr m2 m3 e3, readBytes_congr m1 m2 e2]
  exact hread

end Initium

namespace Initium

/-- A one-LOAD-segment shared-object kernel view for the C6 witness. -/
def c6Elf : ElfFile :=
  { etype := ElfType.sharedObject
    entry_point := 0
    segments := [{ ptype := SegmentType.load, offset := 0, vaddr := 0, file_size := 0x1000,
                   mem_size := 0x1000, is_execute := false, is_write := true, align := 0x1000,
                   dynEntries := [] }] }

/-- A machine with the kernel page at `V = 2^39` mapped to frame 5
and a bump allocator able to hand out fresh frames from 10 on. -/
def c6Machine : Machine :=
  { physMem := fun _ => 0
    pageTable := fun q => if q = 0x8000000 then some (5, presentWritable) else none
    alloc := { original := [uefiDescriptor 7 0x1000 0x100]
               memoryMap := []
               currentDescriptor := some (uefiDescriptor 7 0x1000 0x100)
               nextFrame := 10 } }

/-- The machine after applying the witness relocation. -/
def c6Result : Machine :=
  match applyRelocation c6Machine ((0x8000000000 : Nat) : Int) c6Elf
      { r_offset := 0x10, r_info := 8, r_addend := 0x123 } with
  | Except.ok x => x
  | Except.error _ => c6Machine

/-- Witness for C6 with `V = 2^39`, `O = 0x10`, `A = 0x123`. -/
theorem relocation_roundtrip_witness :
    readBytes c6Result (0x8000000000 + 0x10) 8 =
      some (leBytes 8 (0x8000000000 + 0x123)) ∧
    (∀ relros m2, loadPass3 ((0x8000000000 : Nat) : Int) c6Result relros = Except.ok m2 →
      ∀ loadsegs m3, removeCopiedFlags m2 ((0x8000000000 : Nat) : Int) loadsegs = Except.ok m3 →
        readBytes m3 (0x8000000000 + 0x10) 8 = some (leBytes 8 (0x8000000000 + 0x123))) :=
  relocation_roundtrip c6Machine 0x8000000000 0x10 0x123 c6Elf
    (by
      constructor
      · intro p f fl hp
        simp only [c6Machine] at hp
        by_cases hq : p = 0x8000000
        · rw [if_pos hq] at hp
          injection hp with hp
          injection hp with h1 h2
          subst h1
          left
          decide
        · rw [if_neg hq] at hp
          exact absurd hp (by simp)
      · intro p q fp flp fq flq h1 h2 hfe
        simp only [c6Machine] at h1 h2
        by_cases hq1 : p = 0x8000000
        · by_cases hq2 : q = 0x8000000
          · rw [hq1, hq2]
          · rw [if_neg hq2] at h2
            exact absurd h2 (by simp)
        · rw [if_neg hq1] at h1
          exact absurd h1 (by simp))
    (by
      intro q h1 h2
      simp only [pageSize] at h1 h2
      have hq : q = 0x8000000 := by omega
      subst hq
      simp [c6Machine])
    (by norm_num)
    (by norm_num)
    c6Result
    rfl

end Initium

namespace Initium

/-- `RawFramebufferInfo` reduced to the fields `set_up_mappings`
reads: physical address and `info.byte_len`. -/
structure RawFramebufferInfo where
  addr : Nat
  byteLen : Nat
deriving Repr, DecidableEq

/-- `SystemInfo` (`initium/src/initium.rs`, lines 34-41), without the
framebuffer field (passed separately to `set_up_mappings`). -/
structure SystemInfo where
  rsdp_addr : Option Nat
  ramdisk_addr : Option Nat
  ramdisk_len : Nat
deriving Repr, DecidableEq

/-- `Mappings` (`initium/src/initium.rs`, lines 104-120). -/
structure Mappings where
  entry_point : Nat
  stack_top : Nat
  used_entries : Entries
  framebuffer : Option Nat
  physical_memory_offset : Option Nat
  recursive_index : Option Nat
  tls_template : Option TlsTemplate
  kernel_slice_start : Nat
  kernel_slice_len : Nat
  ramdisk_slice_start : Option Nat
  ramdisk_slice_len : Nat

/-- `VirtAddr::align_down`. -/
def alignDown (a b : Nat) : Nat := a - a % b

/-- The stack-mapping loop of `set_up_mappings`: allocate a fresh
frame for each page and map it PRESENT | WRITABLE. -/
def stackLoop : Machine → Nat → Nat → Except String Machine
  | m, _, 0 => Except.ok m
  | m, p, k + 1 =>
    match allocateFrame m.alloc with
    | (none, _) => Except.error "frame allocation failed when mapping a kernel stack"
    | (some f, alloc2) =>
      match mapTo { m with alloc := alloc2 } p f presentWritable with
      | Except.error _ => Except.error "failed to map page"
      | Except.ok m2 => stackLoop m2 (p + 1) k

/-- `identity_map` over a run of frames (`PhysFrame::range_inclusive`
loops in `set_up_mappings`). -/
def identityMapLoop : Machine → Nat → Nat → Flags → Except String Machine
  | m, _, 0, _ => Except.ok m
  | m, f, k + 1, fl =>
    match mapTo m f f fl with
    | Except.error _ => Except.error "failed to identity map frame"
    | Except.ok m2 => identityMapLoop m2 (f + 1) k fl

/-- `gdt::create_and_load` (`initium/src/gdt.rs`): build a GDT with a
null entry, the kernel code segment and the kernel data segment in
the given frame (written through the bootloader's identity mapping)
and load it.  The descriptor constants are the `x86_64` 0.14 values
of `Descriptor::kernel_code_segment` / `kernel_data_segment`; the
struct is `GlobalDescriptorTable { table: [u64; 8], next_free: 3 }`.
The GDTR/segment-register loads are CPU state outside this model. -/
def createAndLoad (m : Machine) (frame : Nat) : Machine :=
  { m with
    physMem := writeBytesPhys m.physMem (frame * pageSize)
      (leBytes 8 0 ++ leBytes 8 0x00af9b000000ffff ++ leBytes 8 0x00cf93000000ffff ++
        leBytes 8 0 ++ leBytes 8 0 ++ leBytes 8 0 ++ leBytes 8 0 ++ leBytes 8 0 ++
        leBytes 8 3) }

/-- The framebuffer branch of `set_up_mappings`. -/
def fbPhase (m : Machine) (e : Entries) (fb : Option RawFramebufferInfo) :
    Except String (Option Nat × Machine × Entries) :=
  match fb with
  | none => Except.ok (none, m, e)
  | some f =>
    let startFrame := f.addr / pageSize
    let endFrame := (f.addr + f.byteLen - 1) / pageSize
    match mappingAddrPageAligned f.byteLen e with
    | none => Except.error "framebuffer address must be page-aligned"
    | some (startAddr, e2) =>
      match mapRange m (startAddr / pageSize) startFrame (endFrame + 1 - startFrame)
          presentWritable with
      | Except.error er => Except.error er
      | Except.ok m2 => Except.ok (some startAddr, m2, e2)

/-- The ramdisk branch of `set_up_mappings`.  The page count is
`(ramdisk_len - 1) / PAGE_SIZE` with wrapping `u64` subtraction, as
in the source. -/
def ramdiskPhase (m : Machine) (e : Entries) (rdAddr : Option Nat) (rdLen : Nat) :
    Except String (Option Nat × Machine × Entries) :=
  match rdAddr with
  | none => Except.ok (none, m, e)
  | some addr =>
    match mappingAddrPageAligned rdLen e with
    | none => Except.error "ramdisk start address must be page-aligned"
    | some (startAddr, e2) =>
      let startFrame := addr / pageSize
      let pageCount := ((rdLen + (2 ^ 64 - 1)) % 2 ^ 64) / pageSize
      match mapRange m (startAddr / pageSize) startFrame (pageCount + 1) presentWritable with
      | Except.error er => Except.error er
      | Except.ok m2 => Except.ok (some startAddr, m2, e2)

/-- `set_up_mappings` (`initium/src/initium.rs`, lines 122-276).
`ctxAddr` is the link-time address of the `context_switch` function.
The NXE/WP control-register writes are CPU state outside this
model. -/
def setUpMappings (kernel : Kernel) (m : Machine) (ctxAddr : Nat)
    (framebuffer : Option RawFramebufferInfo) (systemInfo : SystemInfo) :
    Except String (Mappings × Machine) :=
  Except.bind (loadKernel kernel m Entries.new) (fun lk =>
    let entryPoint := lk.1
    let tls := lk.2.1
    let m1 := lk.2.2.1
    let e1 := lk.2.2.2
    let kernelStackSize := 80 * 1024
    match mappingAddrPageAligned (pageSize + kernelStackSize) e1 with
    | none => Except.error "kernel stack start address must be page-aligned"
    | some ge =>
      let stackStart := ge.1 / pageSize + 1
      let stackEndAddr := stackStart * pageSize + kernelStackSize
      let stackEnd := (stackEndAddr - 1) / pageSize
      Except.bind (stackLoop m1 stackStart (stackEnd + 1 - stackStart)) (fun m2 =>
        Except.bind (identityMapLoop m2 (ctxAddr / pageSize) 2 presentOnly) (fun m3 =>
          match allocateFrame m3.alloc with
          | (none, _) => Except.error "failed to allocate GDT frame"
          | (some gdtFrame, alloc4) =>
            let m4 := createAndLoad { m3 with alloc := alloc4 } gdtFrame
            Except.bind (identityMapLoop m4 gdtFrame 1 presentOnly) (fun m5 =>
              Except.bind (fbPhase m5 ge.2 framebuffer) (fun fr =>
                Except.bind (ramdiskPhase fr.2.1 fr.2.2 systemInfo.ramdisk_addr
                    systemInfo.ramdisk_len) (fun rr =>
                  Except.ok
                    ({ entry_point := entryPoint
                       stack_top := alignDown stackEndAddr 16
                       used_entries := rr.2.2
                       framebuffer := fr.1
                       physical_memory_offset := none
                       recursive_index := none
                       tls_template := tls
                       kernel_slice_start := kernel.start_address
                       kernel_slice_len := kernel.len
                       ramdisk_slice_start := rr.1
                       ramdisk_slice_len := systemInfo.ramdisk_len }, rr.2.1)))))))

end Initium

namespace Initium

/-- Every descriptor the allocator may still draw frames from ends at
or below the 512 GiB mark, so every frame it can still return has a
number below 2^27. -/
def allocFramesBelow (s : AllocState) : Prop :=
  (∀ d, s.currentDescriptor = some d → d.start + d.len ≤ 2 ^ 39) ∧
  (∀ d ∈ s.memoryMap, d.start + d.len ≤ 2 ^ 39)

theorem allocFramesBelow_allocateLoop (ds : List Descriptor) (nf : Nat)
    (hb : ∀ d ∈ ds, d.start + d.len ≤ 2 ^ 39) :
    (∀ d, (allocateLoop ds nf).2.1 = some d → d.start + d.len ≤ 2 ^ 39) ∧
    (∀ d ∈ (allocateLoop ds nf).2.2.1, d.start + d.len ≤ 2 ^ 39) := by
  obtain ⟨-, i2, i3, -⟩ := allocateLoop_spec ds nf
  exact ⟨fun d hd => hb d (i2 d hd), fun d hd => hb d (i3 d hd)⟩

theorem allocateFrame_below (s : AllocState) (hb : allocFramesBelow s) :
    allocFramesBelow (allocateFrame s).2 ∧
    (∀ f, (allocateFrame s).1 = some f → f < 2 ^ 27) := by
  constructor
  · cases hcd : s.currentDescriptor with
    | none =>
      simp only [allocateFrame, hcd]
      obtain ⟨j1, j2⟩ := allocFramesBelow_allocateLoop s.memoryMap s.nextFrame hb.2
      exact ⟨j1, j2⟩
    | some d =>
      cases hr : allocateFrameFromDescriptor s.nextFrame d with
      | mk r nf2 =>
        cases r with
        | some f =>
          simp only [allocateFrame, hcd, hr]
          exact ⟨fun d2 hd2 => hb.1 d2 (hcd ▸ hd2), hb.2⟩
        | none =>
          simp only [allocateFrame, hcd, hr]
          obtain ⟨j1, j2⟩ := allocFramesBelow_allocateLoop s.memoryMap nf2 hb.2
          exact ⟨j1, j2⟩
  · intro f hf
    obtain ⟨-, -, hd⟩ := (allocateFrame_spec s).2.1 f hf
    rcases hd with ⟨d, hcd, hdf⟩ | ⟨d, hdm, hdf⟩
    · have := hb.1 d hcd
      unfold descFrames pageSize at hdf
      omega
    · have := hb.2 d hdm
      unfold descFrames pageSize at hdf
      omega

/-- The two invariants threaded through every machine phase of
`set_up_mappings` for the stack-layout proof: the allocator keeps
handing out frames below 2^27, and no page at or above page number
2^27 (virtual address 2^39) ever becomes mapped. -/
def c7Ok (m m2 : Machine) : Prop :=
  (allocFramesBelow m.alloc → allocFramesBelow m2.alloc) ∧
  ((∀ q, 2 ^ 27 ≤ q → m.pageTable q = none) →
    ∀ q, 2 ^ 27 ≤ q → m2.pageTable q = none)

theorem c7Ok_refl (m : Machine) : c7Ok m m := ⟨id, id⟩

theorem c7Ok_trans {m1 m2 m3 : Machine} (h1 : c7Ok m1 m2) (h2 : c7Ok m2 m3) :
    c7Ok m1 m3 := ⟨fun h => h2.1 (h1.1 h), fun h => h2.2 (h1.2 h)⟩

theorem c7Ok_mapTo (m : Machine) (p f : Nat) (fl : Flags) (m2 : Machine)
    (hp : p < 2 ^ 27) (h : mapTo m p f fl = Except.ok m2) : c7Ok m m2 := by
  unfold mapTo at h
  cases hpt : m.pageTable p with
  | some v =>
    rw [hpt] at h
    exact absurd h (by simp)
  | none =>
    rw [hpt] at h
    injection h with h
    subst h
    refine ⟨fun hb => hb, fun hh q hq => ?_⟩
    dsimp only
    rw [if_neg (by omega)]
    exact hh q hq

theorem c7Ok_updateFlags (m : Machine) (p : Nat) (fl : Flags) (m2 : Machine)
    (h : updateFlags m p fl = Except.ok m2) : c7Ok m m2 := by
  unfold updateFlags at h
  cases hpt : m.pageTable p with
  | none =>
    rw [hpt] at h
    exact absurd h (by simp)
  | some v =>
    obtain ⟨f, fl0⟩ := v
    rw [hpt] at h
    injection h with h
    subst h
    refine ⟨fun hb => hb, fun hh q hq => ?_⟩
    have hqn := hh q hq
    dsimp only
    by_cases he : q = p
    · rw [he] at hqn
      rw [hqn] at hpt
      exact absurd hpt (by simp)
    · rw [if_neg he]
      exact hqn

theorem c7Ok_makeMut (m : Machine) (p nf : Nat) (m2 : Machine)
    (h : makeMut m p = Except.ok (nf, m2)) : c7Ok m m2 := by
  cases hpt : m.pageTable p with
  | none =>
    simp only [makeMut, hpt] at h
    exact absurd h (by simp)
  | some v =>
    obtain ⟨f, fl⟩ := v
    simp only [makeMut, hpt] at h
    split_ifs at h with hcop
    · injection h with h
      injection h with h1 h2
      subst h2
      exact c7Ok_refl m
    · cases ha : allocateFrame m.alloc with
      | mk r alloc2 =>
        rw [ha] at h
        cases r with
        | none => exact absurd h (by simp)
        | some g =>
          simp only at h
          injection h with h
          injection h with h1 h2
          subst h2
          refine ⟨fun hb => ?_, fun hh q hq => ?_⟩
          · have := (allocateFrame_below m.alloc hb).1
            rw [ha] at this
            exact this
          · have hqn := hh q hq
            simp only
            by_cases he : q = p
            · rw [he] at hqn
              rw [hqn] at hpt
              exact absurd hpt (by simp)
            · rw [if_neg he]
              exact hqn

end Initium

namespace Initium

theorem vAddr_zero (x y : Nat) (h : vAddr 0 x = Except.ok y) : y = x := by
  simp only [vAddr] at h
  split_ifs at h with hc
  injection h with h
  omega

theorem c7Ok_mapRange : ∀ (k : Nat) (m : Machine) (p f : Nat) (fl : Flags) (m2 : Machine),
    p + k ≤ 2 ^ 27 → mapRange m p f k fl = Except.ok m2 → c7Ok m m2 := by
  intro k
  induction k with
  | zero =>
    intro m p f fl m2 hb h
    unfold mapRange at h
    injection h with h
    subst h
    exact c7Ok_refl m
  | succ n ih =>
    intro m p f fl m2 hb h
    unfold mapRange at h
    cases hmt : mapTo m p f fl with
    | error e =>
      rw [hmt] at h
      exact absurd h (by simp)
    | ok mt =>
      rw [hmt] at h
      exact c7Ok_trans (c7Ok_mapTo m p f fl mt (by omega) hmt)
        (ih mt (p + 1) (f + 1) fl m2 (by omega) h)

theorem c7Ok_bssLoop : ∀ (k : Nat) (m : Machine) (p : Nat) (fl : Flags) (m2 : Machine),
    p + k ≤ 2 ^ 27 → bssLoop m p k fl = Except.ok m2 → c7Ok m m2 := by
  intro k
  induction k with
  | zero =>
    intro m p fl m2 hb h
    unfold bssLoop at h
    injection h with h
    subst h
    exact c7Ok_refl m
  | succ n ih =>
    intro m p fl m2 hb h
    unfold bssLoop at h
    cases ha : allocateFrame m.alloc with
    | mk r alloc2 =>
      rw [ha] at h
      cases r with
      | none => exact absurd h (by simp)
      | some f =>
        simp only at h
        cases hmt : mapTo
            { m with physMem := zeroRangePhys m.physMem (f * pageSize) pageSize,
                     alloc := alloc2 } p f fl with
        | error e =>
          rw [hmt] at h
          exact absurd h (by simp)
        | ok mt =>
          rw [hmt] at h
          refine c7Ok_trans (?_ : c7Ok m { m with
              physMem := zeroRangePhys m.physMem (f * pageSize) pageSize,
              alloc := alloc2 })
            (c7Ok_trans (c7Ok_mapTo _ p f fl mt (by omega) hmt)
              (ih mt (p + 1) fl m2 (by omega) h))
          refine ⟨fun hb2 => ?_, fun hh => hh⟩
          have hbp := (allocateFrame_below m.alloc hb2).1
          rw [ha] at hbp
          exact hbp

theorem c7Ok_handleBssSection (m : Machine) (seg : Phdr) (segFlags : Flags) (m2 : Machine)
    (hms : seg.vaddr + seg.mem_size ≤ 2 ^ 39)
    (hfm : seg.file_size ≤ seg.mem_size)
    (h : handleBssSection m 0 seg segFlags = Except.ok m2) : c7Ok m m2 := by
  unfold handleBssSection at h
  obtain ⟨vstart, hva, h⟩ := exceptBind_ok_elim _ _ _ h
  have hv0 : vstart = seg.vaddr := vAddr_zero seg.vaddr vstart hva
  subst hv0
  dsimp only at h
  obtain ⟨mStep, hstep, h⟩ := exceptBind_ok_elim _ _ _ h
  have hok1 : c7Ok m mStep := by
    split_ifs at hstep with hdz
    · obtain ⟨r, hmk, hstep⟩ := exceptBind_ok_elim _ _ _ hstep
      obtain ⟨nf, mm⟩ := r
      injection hstep with hstep
      subst hstep
      exact c7Ok_trans (c7Ok_makeMut m _ nf mm hmk) ⟨fun hb => hb, fun hh => hh⟩
    · injection hstep with hstep
      subst hstep
      exact c7Ok_refl m
  refine c7Ok_trans hok1 (c7Ok_bssLoop _ mStep _ segFlags m2 ?_ h)
  unfold alignUp pageSize
  omega

theorem c7Ok_handleLoadSegment (m : Machine) (kOff : Nat) (seg : Phdr) (m2 : Machine)
    (hm0 : 0 < seg.mem_size)
    (hfm : seg.file_size ≤ seg.mem_size)
    (hms : seg.vaddr + seg.mem_size ≤ 2 ^ 39)
    (hcong : (kOff + seg.offset) % pageSize = seg.vaddr % pageSize)
    (h : handleLoadSegment m kOff 0 seg = Except.ok m2) : c7Ok m m2 := by
  unfold handleLoadSegment at h
  obtain ⟨vstart, hva, h⟩ := exceptBind_ok_elim _ _ _ h
  have hv0 : vstart = seg.vaddr := vAddr_zero seg.vaddr vstart hva
  subst hv0
  dsimp only at h
  obtain ⟨mr, hmr, h⟩ := exceptBind_ok_elim _ _ _ h
  have hok1 : c7Ok m mr := by
    refine c7Ok_mapRange _ m _ _ _ mr ?_ hmr
    unfold pageSize
    unfold pageSize at hcong
    omega
  refine c7Ok_trans hok1 ?_
  split_ifs at h with hgt
  · exact c7Ok_handleBssSection mr seg _ m2 hms hfm h
  · injection h with h
    subst h
    exact c7Ok_refl mr

end Initium

namespace Initium

theorem c7Ok_loadPass1 : ∀ (segs : List Phdr) (kOff : Nat) (m : Machine)
    (tls : Option TlsTemplate) (mt : Machine × Option TlsTemplate),
    (∀ s ∈ segs, s.ptype = SegmentType.load →
      0 < s.mem_size ∧ s.file_size ≤ s.mem_size ∧ s.vaddr + s.mem_size ≤ 2 ^ 39 ∧
      (kOff + s.offset) % pageSize = s.vaddr % pageSize) →
    loadPass1 kOff 0 m segs tls = Except.ok mt → c7Ok m mt.1 := by
  intro segs
  induction segs with
  | nil =>
    intro kOff m tls mt hseg h
    unfold loadPass1 at h
    injection h with h
    subst h
    exact c7Ok_refl m
  | cons s rest ih =>
    intro kOff m tls mt hseg h
    unfold loadPass1 at h
    split_ifs at h with hld htls
    · obtain ⟨ms, hls, h⟩ := exceptBind_ok_elim _ _ _ h
      obtain ⟨h1, h2, h3, h4⟩ := hseg s (List.mem_cons_self s rest) hld
      refine c7Ok_trans (c7Ok_handleLoadSegment m kOff s ms h1 h2 h3 h4 hls) ?_
      exact ih kOff ms tls mt (fun x hx => hseg x (List.mem_cons_of_mem _ hx)) h
    · cases tls with
      | some t => exact absurd h (by simp)
      | none =>
        obtain ⟨t, htl, h⟩ := exceptBind_ok_elim _ _ _ h
        exact ih kOff m (some t) mt (fun x hx => hseg x (List.mem_cons_of_mem _ hx)) h
    · exact ih kOff m tls mt (fun x hx => hseg x (List.mem_cons_of_mem _ hx)) h

theorem c7Ok_copyToPage (m : Machine) (addr : Nat) (buf : List Nat) (p : Nat) (m2 : Machine)
    (h : copyToPage m addr buf p = Except.ok m2) : c7Ok m m2 := by
  unfold copyToPage at h
  cases hmm : makeMut m p with
  | error e =>
    rw [hmm] at h
    exact absurd h (by simp)
  | ok r =>
    obtain ⟨nf, mm⟩ := r
    rw [hmm] at h
    simp only at h
    injection h with h
    subst h
    exact c7Ok_trans (c7Ok_makeMut m p nf mm hmm) ⟨fun hb => hb, fun hh => hh⟩

theorem c7Ok_copyToLoop : ∀ (k : Nat) (addr : Nat) (buf : List Nat) (m : Machine) (p : Nat)
    (m2 : Machine), copyToLoop addr buf m p k = Except.ok m2 → c7Ok m m2 := by
  intro k
  induction k with
  | zero =>
    intro addr buf m p m2 h
    unfold copyToLoop at h
    injection h with h
    subst h
    exact c7Ok_refl m
  | succ n ih =>
    intro addr buf m p m2 h
    unfold copyToLoop at h
    cases hcp : copyToPage m addr buf p with
    | error e =>
      rw [hcp] at h
      exact absurd h (by simp)
    | ok mc =>
      rw [hcp] at h
      exact c7Ok_trans (c7Ok_copyToPage m addr buf p mc hcp) (ih addr buf mc (p + 1) m2 h)

theorem c7Ok_copyTo (m : Machine) (addr : Nat) (buf : List Nat) (m2 : Machine)
    (h : copyTo m addr buf = Except.ok m2) : c7Ok m m2 := by
  unfold copyTo at h
  split_ifs at h with hb
  exact c7Ok_copyToLoop _ addr buf m _ m2 h

theorem c7Ok_applyRelocation (m : Machine) (voff : Int) (elf : ElfFile) (r : Rela)
    (m2 : Machine) (h : applyRelocation m voff elf r = Except.ok m2) : c7Ok m m2 := by
  unfold applyRelocation at h
  split_ifs at h with h1 h2
  obtain ⟨u, hch, h⟩ := exceptBind_ok_elim _ _ _ h
  obtain ⟨addr, hva, h⟩ := exceptBind_ok_elim _ _ _ h
  obtain ⟨value, hvu, h⟩ := exceptBind_ok_elim _ _ _ h
  exact c7Ok_copyTo m addr (leBytes 8 value) m2 h

theorem c7Ok_applyRelocationsLoop : ∀ (k : Nat) (voff : Int) (elf : ElfFile) (relTable : Nat)
    (m : Machine) (idx : Nat) (m2 : Machine),
    applyRelocationsLoop voff elf relTable m idx k = Except.ok m2 → c7Ok m m2 := by
  intro k
  induction k with
  | zero =>
    intro voff elf relTable m idx m2 h
    unfold applyRelocationsLoop at h
    injection h with h
    subst h
    exact c7Ok_refl m
  | succ n ih =>
    intro voff elf relTable m idx m2 h
    unfold applyRelocationsLoop at h
    cases hrr : readRelocation m voff relTable idx with
    | error e =>
      rw [hrr] at h
      exact absurd h (by simp)
    | ok r =>
      rw [hrr] at h
      simp only at h
      cases har : applyRelocation m voff elf r with
      | error e =>
        rw [har] at h
        exact absurd h (by simp)
      | ok ma =>
        rw [har] at h
        exact c7Ok_trans (c7Ok_applyRelocation m voff elf r ma har)
          (ih voff elf relTable ma (idx + 1) m2 h)

theorem c7Ok_handleDynamicSegment (m : Machine) (voff : Int) (elf : ElfFile) (seg : Phdr)
    (m2 : Machine) (h : handleDynamicSegment m voff elf seg = Except.ok m2) : c7Ok m m2 := by
  unfold handleDynamicSegment at h
  obtain ⟨t, hs, h⟩ := exceptBind_ok_elim _ _ _ h
  obtain ⟨rela, rest⟩ := t
  cases rela with
  | none =>
    simp only at h
    split_ifs at h with hcond
    injection h with h
    subst h
    exact c7Ok_refl m
  | some offset =>
    simp only at h
    obtain ⟨totalSize, hts, h⟩ := exceptBind_ok_elim _ _ _ h
    obtain ⟨entSize, hes, h⟩ := exceptBind_ok_elim _ _ _ h
    split_ifs at h with hent
    exact c7Ok_applyRelocationsLoop _ voff elf offset m 0 m2 h

theorem c7Ok_loadPass2 : ∀ (segs : List Phdr) (voff : Int) (elf : ElfFile) (m : Machine)
    (m2 : Machine), loadPass2 voff elf m segs = Except.ok m2 → c7Ok m m2 := by
  intro segs
  induction segs with
  | nil =>
    intro voff elf m m2 h
    unfold loadPass2 at h
    injection h with h
    subst h
    exact c7Ok_refl m
  | cons s rest ih =>
    intro voff elf m m2 h
    unfold loadPass2 at h
    split_ifs at h with hd
    · cases hds : handleDynamicSegment m voff elf s with
      | error e =>
        rw [hds] at h
        exact absurd h (by simp)
      | ok md =>
        rw [hds] at h
        exact c7Ok_trans (c7Ok_handleDynamicSegment m voff elf s md hds)
          (ih voff elf md m2 h)
    · exact ih voff elf m m2 h

theorem c7Ok_relroLoop : ∀ (k : Nat) (m : Machine) (p : Nat) (m2 : Machine),
    relroLoop m p k = Except.ok m2 → c7Ok m m2 := by
  intro k
  induction k with
  | zero =>
    intro m p m2 h
    unfold relroLoop at h
    injection h with h
    subst h
    exact c7Ok_refl m
  | succ n ih =>
    intro m p m2 h
    unfold relroLoop at h
    cases hpt : m.pageTable p with
    | none =>
      rw [hpt] at h
      exact absurd h (by simp)
    | some r =>
      obtain ⟨f, fl⟩ := r
      rw [hpt] at h
      simp only at h
      split_ifs at h with hw
      · cases hu : updateFlags m p { fl with writable := false } with
        | error e =>
          rw [hu] at h
          exact absurd h (by simp)
        | ok mu =>
          rw [hu] at h
          exact c7Ok_trans (c7Ok_updateFlags m p _ mu hu) (ih mu (p + 1) m2 h)
      · exact ih m (p + 1) m2 h

theorem c7Ok_handleRelroSegment (m : Machine) (voff : Int) (seg : Phdr) (m2 : Machine)
    (h : handleRelroSegment m voff seg = Except.ok m2) : c7Ok m m2 := by
  unfold handleRelroSegment at h
  cases hu : u64Add voff seg.vaddr with
  | error e =>
    rw [hu] at h
    exact absurd h (by simp)
  | ok start =>
    rw [hu] at h
    simp only at h
    split_ifs at h with hc
    exact c7Ok_relroLoop _ m _ m2 h

theorem c7Ok_loadPass3 : ∀ (segs : List Phdr) (voff : Int) (m : Machine) (m2 : Machine),
    loadPass3 voff m segs = Except.ok m2 → c7Ok m m2 := by
  intro segs
  induction segs with
  | nil =>
    intro voff m m2 h
    unfold loadPass3 at h
    injection h with h
    subst h
    exact c7Ok_refl m
  | cons s rest ih =>
    intro voff m m2 h
    unfold loadPass3 at h
    split_ifs at h with hs
    · cases hr : handleRelroSegment m voff s with
      | error e =>
        rw [hr] at h
        exact absurd h (by simp)
      | ok mr =>
        rw [hr] at h
        exact c7Ok_trans (c7Ok_handleRelroSegment m voff s mr hr) (ih voff mr m2 h)
    · exact ih voff m m2 h

theorem c7Ok_removeCopiedLoop : ∀ (k : Nat) (m : Machine) (p : Nat) (m2 : Machine),
    removeCopiedLoop m p k = Except.ok m2 → c7Ok m m2 := by
  intro k
  induction k with
  | zero =>
    intro m p m2 h
    unfold removeCopiedLoop at h
    injection h with h
    subst h
    exact c7Ok_refl m
  | succ n ih =>
    intro m p m2 h
    unfold removeCopiedLoop at h
    cases hpt : m.pageTable p with
    | none =>
      rw [hpt] at h
      exact absurd h (by simp)
    | some r =>
      obtain ⟨f, fl⟩ := r
      rw [hpt] at h
      simp only at h
      split_ifs at h with hw
      · cases hu : updateFlags m p { fl with copied := false } with
        | error e =>
          rw [hu] at h
          exact absurd h (by simp)
        | ok mu =>
          rw [hu] at h
          exact c7Ok_trans (c7Ok_updateFlags m p _ mu hu) (ih mu (p + 1) m2 h)
      · exact ih m (p + 1) m2 h

theorem c7Ok_removeCopiedFlags : ∀ (segs : List Phdr) (voff : Int) (m : Machine)
    (m2 : Machine), removeCopiedFlags m voff segs = Except.ok m2 → c7Ok m m2 := by
  intro segs
  induction segs with
  | nil =>
    intro voff m m2 h
    unfold removeCopiedFlags at h
    injection h with h
    subst h
    exact c7Ok_refl m
  | cons s rest ih =>
    intro voff m m2 h
    unfold removeCopiedFlags at h
    split_ifs at h with hs
    · cases hu : u64Add voff s.vaddr with
      | error e =>
        rw [hu] at h
        exact absurd h (by simp)
      | ok start =>
        rw [hu] at h
        simp only at h
        split_ifs at h with hc
        cases hr : removeCopiedLoop m (start / pageSize)
            ((start + s.mem_size - 1) / pageSize + 1 - start / pageSize) with
        | error e =>
          rw [hr] at h
          exact absurd h (by simp)
        | ok mr =>
          rw [hr] at h
          exact c7Ok_trans (c7Ok_removeCopiedLoop _ m _ mr hr) (ih voff mr m2 h)
    · exact ih voff m m2 h

end Initium

namespace Initium

theorem markSegmentsE_facts : ∀ (segs : List Phdr) (voff : Int) (e e2 : Entries),
    markSegmentsE segs voff e = Except.ok e2 →
    (e.entry_state.getD 0 false = true → e2.entry_state.getD 0 false = true) ∧
    e2.entry_state.length = e.entry_state.length := by
  intro segs
  induction segs with
  | nil =>
    intro voff e e2 h
    unfold markSegmentsE at h
    injection h with h
    subst h
    exact ⟨id, rfl⟩
  | cons s rest ih =>
    intro voff e e2 h
    unfold markSegmentsE at h
    split_ifs at h with hms
    · cases hu : u64Add voff s.vaddr with
      | error er =>
        rw [hu] at h
        exact absurd h (by simp)
      | ok a =>
        rw [hu] at h
        simp only at h
        split_ifs at h with hcanon
        obtain ⟨i1, i2⟩ := ih voff _ e2 h
        refine ⟨fun h0 => i1 ?_, ?_⟩
        · dsimp only
          unfold markRangeAsUsed
          rw [markRange_getD]
          split_ifs with hc
          · rfl
          · exact h0
        · rw [i2]
          dsimp only
          unfold markRangeAsUsed
          exact markRange_length _ _ _
    · exact ih voff e e2 h

theorem loadKernel_c7 (kernel : Kernel) (m : Machine) (e : Entries)
    (ep : Nat) (tls : Option TlsTemplate) (m1 : Machine) (e1 : Entries)
    (hety : kernel.elf.etype = ElfType.executable)
    (hseg : ∀ s ∈ kernel.elf.segments, s.ptype = SegmentType.load →
      0 < s.mem_size ∧ s.file_size ≤ s.mem_size ∧ s.vaddr + s.mem_size ≤ 2 ^ 39 ∧
      (kernel.start_address + s.offset) % pageSize = s.vaddr % pageSize)
    (h : loadKernel kernel m e = Except.ok (ep, tls, m1, e1)) :
    c7Ok m m1 ∧
    (e.entry_state.getD 0 false = true → e1.entry_state.getD 0 false = true) ∧
    e1.entry_state.length = e.entry_state.length := by
  unfold loadKernel at h
  obtain ⟨ke, hln, h⟩ := exceptBind_ok_elim _ _ _ h
  obtain ⟨mt, hp1, h⟩ := exceptBind_ok_elim _ _ _ h
  obtain ⟨m3, hp2, h⟩ := exceptBind_ok_elim _ _ _ h
  obtain ⟨m4, hp3, h⟩ := exceptBind_ok_elim _ _ _ h
  obtain ⟨m5, hcf, h⟩ := exceptBind_ok_elim _ _ _ h
  obtain ⟨ep2, hva, h⟩ := exceptBind_ok_elim _ _ _ h
  injection h with h
  injection h with h1 h
  injection h with h2 h
  injection h with h3 h4
  subst h3
  subst h4
  unfold loaderNew at hln
  split_ifs at hln with halign
  rw [hety] at hln
  simp only at hln
  obtain ⟨e2, hmse, hln⟩ := exceptBind_ok_elim _ _ _ hln
  injection hln with hln
  subst hln
  obtain ⟨s0, slen⟩ := markSegmentsE_facts kernel.elf.segments 0 e e2 hmse
  refine ⟨?_, s0, slen⟩
  refine c7Ok_trans (c7Ok_loadPass1 kernel.elf.segments kernel.start_address m none mt
    hseg hp1) ?_
  refine c7Ok_trans (c7Ok_loadPass2 kernel.elf.segments 0 kernel.elf mt.1 m3 hp2) ?_
  refine c7Ok_trans (c7Ok_loadPass3 kernel.elf.segments 0 m3 m4 hp3) ?_
  exact c7Ok_removeCopiedFlags kernel.elf.segments 0 m4 m5 hcf

theorem stackLoop_c7 : ∀ (k : Nat) (m : Machine) (p : Nat) (m2 : Machine),
    stackLoop m p k = Except.ok m2 →
    (allocFramesBelow m.alloc → allocFramesBelow m2.alloc) ∧
    (∀ q, q < p ∨ p + k ≤ q → m2.pageTable q = m.pageTable q) ∧
    (∀ i, i < k → ∃ f, m2.pageTable (p + i) = some (f, presentWritable)) := by
  intro k
  induction k with
  | zero =>
    intro m p m2 h
    unfold stackLoop at h
    injection h with h
    subst h
    exact ⟨id, fun q _ => rfl, fun i hi => absurd hi (by omega)⟩
  | succ n ih =>
    intro m p m2 h
    unfold stackLoop at h
    cases ha : allocateFrame m.alloc with
    | mk r alloc2 =>
      rw [ha] at h
      cases r with
      | none => exact absurd h (by simp)
      | some f =>
        simp only at h
        cases hmt : mapTo { m with alloc := alloc2 } p f presentWritable with
        | error e =>
          rw [hmt] at h
          exact absurd h (by simp)
        | ok mt =>
          rw [hmt] at h
          obtain ⟨i1, i2, i3⟩ := ih mt (p + 1) m2 h
          simp only [mapTo] at hmt
          cases hpt : m.pageTable p with
          | some v =>
            rw [hpt] at hmt
            exact absurd hmt (by simp)
          | none =>
            rw [hpt] at hmt
            injection hmt with hmt
            subst hmt
            refine ⟨?_, ?_, ?_⟩
            · intro hb
              apply i1
              have hbp := (allocateFrame_below m.alloc hb).1
              rw [ha] at hbp
              exact hbp
            · intro q hq
              rw [i2 q (by omega)]
              dsimp only
              rw [if_neg (by omega)]
            · intro i hi
              cases i with
              | zero =>
                rw [Nat.add_zero, i2 p (by omega)]
                dsimp only
                rw [if_pos rfl]
                exact ⟨f, rfl⟩
              | succ j =>
                have hj := i3 j (by omega)
                rw [show p + (j + 1) = p + 1 + j from by omega]
                exact hj

theorem identityMapLoop_c7 : ∀ (k : Nat) (m : Machine) (f : Nat) (fl : Flags) (m2 : Machine),
    identityMapLoop m f k fl = Except.ok m2 →
    m2.alloc = m.alloc ∧
    (∀ q, q < f ∨ f + k ≤ q → m2.pageTable q = m.pageTable q) ∧
    (∀ q v, m.pageTable q = some v → m2.pageTable q = some v) := by
  intro k
  induction k with
  | zero =>
    intro m f fl m2 h
    unfold identityMapLoop at h
    injection h with h
    subst h
    exact ⟨rfl, fun q _ => rfl, fun q v hv => hv⟩
  | succ n ih =>
    intro m f fl m2 h
    unfold identityMapLoop at h
    cases hmt : mapTo m f f fl with
    | error e =>
      rw [hmt] at h
      exact absurd h (by simp)
    | ok mt =>
      rw [hmt] at h
      obtain ⟨i1, i2, i3⟩ := ih mt (f + 1) fl m2 h
      unfold mapTo at hmt
      cases hpt : m.pageTable f with
      | some v =>
        rw [hpt] at hmt
        exact absurd hmt (by simp)
      | none =>
        rw [hpt] at hmt
        injection hmt with hmt
        subst hmt
        refine ⟨i1, ?_, ?_⟩
        · intro q hq
          rw [i2 q (by omega)]
          dsimp only
          rw [if_neg (by omega)]
        · intro q v hv
          have hqf : q ≠ f := by
            intro he
            rw [he] at hv
            rw [hv] at hpt
            exact absurd hpt (by simp)
          refine i3 q v ?_
          dsimp only
          rw [if_neg hqf]
          exact hv

end Initium

namespace Initium

theorem getFreeAddress_low_bound (size alignment : Nat) (e : Entries) (addr : Nat)
    (e2 : Entries)
    (hs0 : e.entry_state.getD 0 false = true)
    (hlen : e.entry_state.length = 512)
    (h : getFreeAddress size alignment e = some (addr, e2)) :
    2 ^ 39 ≤ addr ∧ addr % pageSize = 0 := by
  unfold getFreeAddress at h
  split_ifs at h with hp
  cases hge : getFreeEntries ((size + (level4Size - 1)) / level4Size) e with
  | none =>
    rw [hge] at h
    exact absurd h (by simp)
  | some r =>
    obtain ⟨idx, e5⟩ := r
    rw [hge] at h
    simp only at h
    injection h with h
    injection h with hg1 hg2
    obtain ⟨hnum, hle, hfree, -, -⟩ := getFreeEntries_sound _ e idx e5 hge
    have hidx1 : 1 ≤ idx := by
      rcases Nat.eq_zero_or_pos idx with h0 | h1
      · subst h0
        exfalso
        have hf := hfree 0 (Nat.le_refl 0) (by omega)
        rw [hf] at hs0
        exact absurd hs0 (by simp)
      · exact h1
    have hidx511 : idx ≤ 511 := by
      rw [hlen] at hle
      omega
    subst hg1
    unfold fromPageTableIndices1GiB canonicalVirtAddr
    dsimp only
    split_ifs with hc
    · constructor
      · omega
      · unfold pageSize
        omega
    · constructor
      · omega
      · unfold pageSize
        omega

theorem mappingAddrPageAligned_c7 (size : Nat) (e : Entries) (addr : Nat) (e2 : Entries)
    (hs0 : e.entry_state.getD 0 false = true)
    (hlen : e.entry_state.length = 512)
    (h : mappingAddrPageAligned size e = some (addr, e2)) :
    2 ^ 39 ≤ addr ∧ addr % pageSize = 0 := by
  unfold mappingAddrPageAligned at h
  cases hma : mappingAddr size pageSize e with
  | none =>
    rw [hma] at h
    exact absurd h (by simp)
  | some r =>
    obtain ⟨exc, e3⟩ := r
    rw [hma] at h
    cases exc with
    | error a =>
      simp only at h
      exact absurd h (by simp)
    | ok a =>
      simp only at h
      injection h with h
      injection h with ha he
      subst ha
      subst he
      unfold mappingAddr at hma
      cases hgf : getFreeAddress size pageSize e with
      | none =>
        rw [hgf] at hma
        exact absurd hma (by simp)
      | some r2 =>
        obtain ⟨a2, e4⟩ := r2
        rw [hgf] at hma
        simp only at hma
        split_ifs at hma with hmod
        · injection hma with hma
          injection hma with h1 h2
          injection h1 with h1
          subst h1
          exact getFreeAddress_low_bound size pageSize e a2 e4 hs0 hlen hgf
        · injection hma with hma
          injection hma with h1 h2
          exact absurd h1 (by simp)

end Initium

namespace Initium

/-- C7: with the 80 KiB stack request of `set_up_mappings`, the
returned `stack_top` equals `stack_start + 0x14000` aligned down to
16 bytes (and the alignment is the identity, since `stack_start` is
page-aligned), the guard page at `stack_start - 4096` is left
unmapped in the kernel page table, and every one of the 20 pages of
`[stack_start, stack_start + 0x14000)` is mapped PRESENT | WRITABLE.
Stated for an executable (non-PIE) kernel whose LOAD segments lie
below the 512 GiB boundary, a fresh kernel page table, a firmware
memory map below 512 GiB, a bootloader image below 512 GiB and no
framebuffer or ramdisk; the stack itself always lands at or above
512 GiB because the tracker's slot 0 is reserved. -/
theorem set_up_mappings_stack_layout (kernel : Kernel) (m : Machine) (ctxAddr : Nat)
    (si : SystemInfo) (mp : Mappings) (mFinal : Machine)
    (hety : kernel.elf.etype = ElfType.executable)
    (hseg : ∀ s ∈ kernel.elf.segments, s.ptype = SegmentType.load →
      0 < s.mem_size ∧ s.file_size ≤ s.mem_size ∧ s.vaddr + s.mem_size ≤ 2 ^ 39 ∧
      (kernel.start_address + s.offset) % pageSize = s.vaddr % pageSize)
    (hfresh : ∀ p, m.pageTable p = none)
    (hballoc : allocFramesBelow m.alloc)
    (hctx : ctxAddr + 2 * pageSize ≤ 2 ^ 39)
    (hrd : si.ramdisk_addr = none)
    (h : setUpMappings kernel m ctxAddr none si = Except.ok (mp, mFinal)) :
    ∃ stackStartAddr,
      stackStartAddr % pageSize = 0 ∧
      mp.stack_top = alignDown (stackStartAddr + 0x14000) 16 ∧
      mp.stack_top = stackStartAddr + 0x14000 ∧
      mFinal.pageTable ((stackStartAddr - pageSize) / pageSize) = none ∧
      (∀ i, i < 20 → ∃ f, mFinal.pageTable (stackStartAddr / pageSize + i) =
        some (f, presentWritable)) := by
  unfold setUpMappings at h
  obtain ⟨lk, hlk, h⟩ := exceptBind_ok_elim _ _ _ h
  dsimp only at h
  cases hma : mappingAddrPageAligned (pageSize + 80 * 1024) lk.2.2.2 with
  | none =>
    rw [hma] at h
    exact absurd h (by simp)
  | some ge =>
    rw [hma] at h
    simp only at h
    obtain ⟨m2, hsl, h⟩ := exceptBind_ok_elim _ _ _ h
    obtain ⟨m3, hcm, h⟩ := exceptBind_ok_elim _ _ _ h
    cases haf : allocateFrame m3.alloc with
    | mk r alloc4 =>
      rw [haf] at h
      cases r with
      | none => exact absurd h (by simp)
      | some gdtFrame =>
        simp only at h
        obtain ⟨m5, hgm, h⟩ := exceptBind_ok_elim _ _ _ h
        obtain ⟨fr, hfb, h⟩ := exceptBind_ok_elim _ _ _ h
        obtain ⟨rr, hrdp, h⟩ := exceptBind_ok_elim _ _ _ h
        have hfr : fr = (none, m5, ge.2) := by
          unfold fbPhase at hfb
          injection hfb with hfb
          exact hfb.symm
        subst hfr
        have hrr : rr = (none, m5, ge.2) := by
          unfold ramdiskPhase at hrdp
          rw [hrd] at hrdp
          injection hrdp with hrdp
          exact hrdp.symm
        subst hrr
        injection h with h
        injection h with hmp hmf
        subst hmp
        subst hmf
        have hlk2 : loadKernel kernel m Entries.new =
            Except.ok (lk.1, lk.2.1, lk.2.2.1, lk.2.2.2) := by rw [hlk]
        obtain ⟨hok1, hs0f, hlenf⟩ := loadKernel_c7 kernel m Entries.new lk.1 lk.2.1
          lk.2.2.1 lk.2.2.2 hety hseg hlk2
        have hs0 : lk.2.2.2.entry_state.getD 0 false = true := hs0f (by decide)
        have hlen : lk.2.2.2.entry_state.length = 512 := by
          rw [hlenf]
          decide
        have hma2 : mappingAddrPageAligned (pageSize + 80 * 1024) lk.2.2.2 =
            some (ge.1, ge.2) := by rw [hma]
        obtain ⟨hge39, hgemod⟩ := mappingAddrPageAligned_c7 (pageSize + 80 * 1024)
          lk.2.2.2 ge.1 ge.2 hs0 hlen hma2
        have hhigh1 : ∀ q, 2 ^ 27 ≤ q → lk.2.2.1.pageTable q = none :=
          hok1.2 (fun q _ => hfresh q)
        have hb1 : allocFramesBelow lk.2.2.1.alloc := hok1.1 hballoc
        obtain ⟨sl1, sl2, sl3⟩ := stackLoop_c7 _ lk.2.2.1 (ge.1 / pageSize + 1) m2 hsl
        obtain ⟨im1a, im1b, im1c⟩ :=
          identityMapLoop_c7 2 m2 (ctxAddr / pageSize) presentOnly m3 hcm
        obtain ⟨im2a, im2b, im2c⟩ :=
          identityMapLoop_c7 1 (createAndLoad { m3 with alloc := alloc4 } gdtFrame)
            gdtFrame presentOnly m5 hgm
        have hcl : (createAndLoad { m3 with alloc := alloc4 } gdtFrame).pageTable =
            m3.pageTable := rfl
        have hb3 : allocFramesBelow m3.alloc := by
          rw [im1a]
          exact sl1 hb1
        have hgdt : gdtFrame < 2 ^ 27 :=
          (allocateFrame_below m3.alloc hb3).2 gdtFrame (by rw [haf])
        have hgpage : 2 ^ 27 ≤ ge.1 / pageSize := by
          unfold pageSize
          omega
        have hctxpage : ctxAddr / pageSize + 2 ≤ 2 ^ 27 := by
          unfold pageSize at hctx ⊢
          omega
        have hguard5 : m5.pageTable (ge.1 / pageSize) = none := by
          have h1 : lk.2.2.1.pageTable (ge.1 / pageSize) = none := hhigh1 _ hgpage
          have h2 := sl2 (ge.1 / pageSize) (Or.inl (by omega))
          have h3 := im1b (ge.1 / pageSize) (Or.inr (by omega))
          have h4 := im2b (ge.1 / pageSize) (Or.inr (by omega))
          rw [h4, hcl, h3, h2, h1]
        have hstack : ∀ i, i < 20 →
            ∃ f, m5.pageTable (ge.1 / pageSize + 1 + i) = some (f, presentWritable) := by
          intro i hi
          obtain ⟨f, hf⟩ := sl3 i (by
            unfold pageSize
            omega)
          have h3 := im1c _ _ hf
          have h5 := im2c (ge.1 / pageSize + 1 + i) (f, presentWritable) (by
            rw [hcl]
            exact h3)
          exact ⟨f, h5⟩
        refine ⟨ge.1 + pageSize, ?_, ?_, ?_, ?_, ?_⟩
        · unfold pageSize
          unfold pageSize at hgemod
          omega
        · show alignDown ((ge.1 / pageSize + 1) * pageSize + 80 * 1024) 16 =
            alignDown (ge.1 + pageSize + 0x14000) 16
          rw [show (ge.1 / pageSize + 1) * pageSize + 80 * 1024 =
            ge.1 + pageSize + 0x14000 from by
              unfold pageSize
              unfold pageSize at hgemod
              omega]
        · show alignDown ((ge.1 / pageSize + 1) * pageSize + 80 * 1024) 16 =
            ge.1 + pageSize + 0x14000
          unfold alignDown pageSize
          unfold pageSize at hgemod
          omega
        · rw [show (ge.1 + pageSize - pageSize) / pageSize = ge.1 / pageSize from by
            unfold pageSize
            omega]
          exact hguard5
        · intro i hi
          rw [show (ge.1 + pageSize) / pageSize + i = ge.1 / pageSize + 1 + i from by
            unfold pageSize
            unfold pageSize at hgemod
            omega]
          exact hstack i hi

end Initium

namespace Initium

/-- A minimal executable kernel for the C7 witness: one LOAD segment
of one page at virtual 0x1000, kernel slice at physical 0x10000. -/
def c7Kernel : Kernel :=
  { elf := { etype := ElfType.executable
             entry_point := 0x1000
             segments := [{ ptype := SegmentType.load, offset := 0, vaddr := 0x1000,
                            file_size := 0x1000, mem_size := 0x1000, is_execute := true,
                            is_write := false, align := 0x1000, dynEntries := [] }] }
    start_address := 0x10000
    len := 0x1000 }

/-- A machine with a fresh page table and one Usable firmware region
[0x1000, 0x101000). -/
def c7M : Machine :=
  { physMem := fun _ => 0
    pageTable := fun _ => none
    alloc := AllocState.new [uefiDescriptor 7 0x1000 0x100] }

/-- No ramdisk. -/
def c7Si : SystemInfo :=
  { rsdp_addr := none, ramdisk_addr := none, ramdisk_len := 0 }

/-- The mappings and machine produced by the witness run. -/
def c7Run : Mappings × Machine :=
  match setUpMappings c7Kernel c7M 0x200000 none c7Si with
  | Except.ok x => x
  | Except.error _ =>
    ({ entry_point := 0, stack_top := 0, used_entries := Entries.new, framebuffer := none,
       physical_memory_offset := none, recursive_index := none, tls_template := none,
       kernel_slice_start := 0, kernel_slice_len := 0, ramdisk_slice_start := none,
       ramdisk_slice_len := 0 }, c7M)

/-- Witness for C7: the concrete run returns stack_top equal to
stack_start + 0x14000 (here 0x8000015000), leaves the guard page
unmapped and maps all 20 stack pages PRESENT | WRITABLE. -/
theorem set_up_mappings_stack_layout_witness :
    ∃ stackStartAddr,
      stackStartAddr % pageSize = 0 ∧
      c7Run.1.stack_top = alignDown (stackStartAddr + 0x14000) 16 ∧
      c7Run.1.stack_top = stackStartAddr + 0x14000 ∧
      c7Run.2.pageTable ((stackStartAddr - pageSize) / pageSize) = none ∧
      (∀ i, i < 20 → ∃ f, c7Run.2.pageTable (stackStartAddr / pageSize + i) =
        some (f, presentWritable)) :=
  set_up_mappings_stack_layout c7Kernel c7M 0x200000 c7Si c7Run.1 c7Run.2
    rfl
    (by decide)
    (fun p => rfl)
    (by
      refine ⟨?_, ?_⟩
      · intro d hd
        exact absurd hd (by simp [c7M, AllocState.new, AllocState.newStartingAt])
      · intro d hd
        simp only [c7M, AllocState.new, AllocState.newStartingAt,
          List.mem_singleton] at hd
        subst hd
        decide)
    (by decide)
    rfl
    rfl

end Initium
